import Mathlib

/-!
# cvec: the C vector template header `vector.h`

A shallow embedding of the functions that `VEC_IMPL_MACRO(VName, VType, FAttr,
calloc, realloc, free)` generates, for an arbitrary element type, on the 64-bit
target (`size_t` is 64 bits wide, `int` is 32 bits wide).

* The control structure `struct VName { VType *elements; size_t size; size_t
  capacity; }` is the structure `vec`.  The memory reached through the
  `elements` pointer is a flat slot function: `v.elements i` is
  `v->elements[i]`, and a store `v->elements[i] = e` updates slot `i`.  The
  block the pointer refers to is kept in `block`: `none` is `NULL`, `some n` is
  a heap block for which `n` bytes were requested.
* `size_t` arithmetic that can wrap is written with an explicit `% SIZE_MOD`.
* The allocator triple of the macro is the parameter `Allocator`: it decides
  which requests return `NULL`, and what a block returned by `realloc` holds
  where nothing was copied into it.
* `assert` failures end the run: the outcome `fatal s` carries the state `s` in
  which the process is aborted.  Signed overflow of an `int` counter and the use
  of a pointer into a block that is gone are undefined behaviour: the outcome
  `undefined`.
* The macro `VFOR` is a loop over an arbitrary body; it is run with fuel.  The
  cursor `Var` is the index of the slot it points to; the body may write
  through it, assign it, change the vector, and leave the loop with `break`.
  The effect of a body is a function of the cursor and the state of the vector.
-/

namespace Cvec

/-- Number of values of `size_t`: arithmetic on `size` and `capacity` is modulo this. -/
def SIZE_MOD : Nat := 2 ^ 64

/-- Largest value of `int`, the type of the loop counter in `extend`. -/
def INT_MAX : Nat := 2 ^ 31 - 1

/-- Value of `sizeof(VSNAME(VName))`: one pointer and two `size_t`, 8 bytes each. -/
def sizeof_vec : Nat := 24

/-- The signed integer of `w` bits whose bit pattern is `n` (two's complement). -/
def signed (w n : Nat) : Int :=
  if n % 2 ^ w < 2 ^ (w - 1) then ((n % 2 ^ w : Nat) : Int)
  else ((n % 2 ^ w : Nat) : Int) - ((2 ^ w : Nat) : Int)

/-- What the template needs to know about the element type `VType`:
`sizeof(VType)`, the value whose bytes are all zero (what `calloc` leaves), and
the value that an object with a given bit pattern holds (what memory that
nobody initialised reads as). -/
class CType (T : Type) where
  sizeof : Nat
  zero : T
  ofBits : Nat → T

/-- The `int` of `VEC_DECLARE_LOCAL(ivec, int)` in `example.c`. -/
instance : CType Int where
  sizeof := 4
  zero := 0
  ofBits := signed 32

/-- The allocator triple `calloc, realloc, free` handed to `VEC_IMPL_MACRO`:
`calloc n s` tells whether `calloc(n, s)` returns a block (not `NULL`), and
`realloc p b` whether `realloc(p, b)` does, `p` being the old block (`none`
for `NULL`, `some n` for a block of `n` bytes).  `fresh p b i` is the bit
pattern found in slot `i` of the block that `realloc(p, b)` returned, where
`realloc` did not copy the slot from the old block (the C standard leaves that
content indeterminate).  `free` returns nothing. -/
structure Allocator where
  calloc : Nat → Nat → Bool
  realloc : Option Nat → Nat → Bool
  fresh : Option Nat → Nat → Nat → Nat

/-- An allocator no request of which returns `NULL` ("allocation succeeding"). -/
def Allocator.succeeds (A : Allocator) : Prop :=
  (∀ n s, A.calloc n s = true) ∧ (∀ p b, A.realloc p b = true)

/-- The allocator that grants every request and whose new memory reads as zero:
an arena allocator that lays its blocks out in a zeroed region, with no
bookkeeping of its own next to them. -/
def okAlloc : Allocator where
  calloc := fun _ _ => true
  realloc := fun _ _ => true
  fresh := fun _ _ _ => 0

/-- The struct `VName`: `elements i` is the content of `elements[i]`, `block` the
block the `elements` pointer refers to (`none` = `NULL`, `some n` = a block of
`n` requested bytes), `size` and `capacity` the two `size_t` fields. -/
structure vec (T : Type) where
  elements : Nat → T
  block : Option Nat
  size : Nat
  capacity : Nat

/-- How a call ends: `ret a` it returns `a`; `fatal s` an `assert` fails and the
process is aborted in state `s`; `undefined` the call runs into undefined
behaviour (signed overflow of an `int`, use of a pointer into a block that is
gone). -/
inductive Outcome (σ α : Type) where
  | ret (a : α) : Outcome σ α
  | fatal (s : σ) : Outcome σ α
  | undefined : Outcome σ α

/-- Sequencing of two calls: the second runs only if the first returned. -/
def Outcome.bind {σ α β : Type} (r : Outcome σ α) (f : α → Outcome σ β) : Outcome σ β :=
  match r with
  | .ret a => f a
  | .fatal s => .fatal s
  | .undefined => .undefined

variable {T : Type}

/-- `VName_init`: `v->size = 0; v->elements = calloc(v->capacity = 0x10,
sizeof(VSNAME(VName))); assert(v->elements);`.  `calloc` zeroes the slots that
lie inside the block of `0x10 * sizeof_vec` bytes; memory outside the block is
whatever it was. -/
def init [CType T] (A : Allocator) (v : vec T) : Outcome (vec T) (vec T) :=
  if A.calloc 0x10 sizeof_vec then
    .ret { elements := fun i =>
             if (i + 1) * CType.sizeof T ≤ 0x10 * sizeof_vec then CType.zero else v.elements i
           block := some (0x10 * sizeof_vec)
           size := 0
           capacity := 0x10 }
  else
    .fatal { v with block := none, size := 0, capacity := 0x10 }

/-- `VName_create`: `v = calloc(1, sizeof(VSNAME(VName))); assert(v); init(v);
return v;`.  The fresh control structure is all zero: `NULL`, 0, 0; `mem` is
what the memory around the buffer that `init` then obtains holds.  `fatal none`
is the abort on `assert(v)`, when there is no structure. -/
def create [CType T] (A : Allocator) (mem : Nat → T) : Outcome (Option (vec T)) (vec T) :=
  if A.calloc 1 sizeof_vec then
    match init A ({ elements := mem, block := none, size := 0, capacity := 0 } : vec T) with
    | .ret v => .ret v
    | .fatal s => .fatal (some s)
    | .undefined => .undefined
  else
    .fatal none

/-- What the slots hold after `realloc(v->elements, bytes)` has returned a
block: `realloc` copies the old block up to the lesser of its size and `bytes`,
so slot `i` is carried over when it ends inside both (the old block of `NULL`
has no bytes); every other slot holds what the allocator left there. -/
def realloc_slots [CType T] (A : Allocator) (v : vec T) (bytes : Nat) : Nat → T :=
  fun i =>
    if (i + 1) * CType.sizeof T ≤ min (v.block.getD 0) bytes then v.elements i
    else CType.ofBits (A.fresh v.block bytes i)

/-- `VName_realloc` (the spec's `grow`): `v->elements = realloc(v->elements,
(v->capacity *= 2) * sizeof(VType)); assert(v->elements); return v;`.  Both
products are `size_t` arithmetic.  The new block holds what `realloc` carried
over from the old one (`realloc_slots`). -/
def realloc [CType T] (A : Allocator) (v : vec T) : Outcome (vec T) (vec T) :=
  let capacity := (v.capacity * 2) % SIZE_MOD
  let bytes := (capacity * CType.sizeof T) % SIZE_MOD
  if A.realloc v.block bytes then
    .ret { v with elements := realloc_slots A v bytes, block := some bytes, capacity := capacity }
  else
    .fatal { v with block := none, capacity := capacity }

/-- The byte count `VName_realloc` hands to `realloc`:
`(v->capacity *= 2) * sizeof(VType)`. -/
def grow_bytes [CType T] (v : vec T) : Nat :=
  ((v.capacity * 2) % SIZE_MOD * CType.sizeof T) % SIZE_MOD

/-- `VName_push`: `if (v->size > v->capacity) assert(0); if (v->size ==
v->capacity) realloc(v); v->elements[v->size++] = e; return v;`. -/
def push [CType T] (A : Allocator) (v : vec T) (e : T) : Outcome (vec T) (vec T) :=
  if v.size > v.capacity then
    .fatal v
  else
    (if v.size = v.capacity then realloc A v else .ret v).bind fun v1 =>
      .ret { v1 with elements := Function.update v1.elements v1.size e
                     size := (v1.size + 1) % SIZE_MOD }

/-- `VName_pop`: `assert(v->size != 0); return v->elements[--v->size];`.  The
decrement cannot wrap, `size` being nonzero. -/
def pop (v : vec T) : Outcome (vec T) (T × vec T) :=
  if v.size = 0 then
    .fatal v
  else
    .ret (v.elements (v.size - 1), { v with size := v.size - 1 })

/-- `VName_top`: `assert(v->size != 0); return v->elements[v->size - 1];`. -/
def top (v : vec T) : Outcome (vec T) (T × vec T) :=
  if v.size = 0 then
    .fatal v
  else
    .ret (v.elements (v.size - 1), v)

/-- The loop of `VName_extend` from counter value `i`: `for (...; i < size; i++)
push(v, array[i]);`.  The counter is an `int`; it starts at 0 and only grows,
so `(size_t) i` is `i`, and `i++` at `INT_MAX` overflows. -/
def extend_loop [CType T] (A : Allocator) (array : Nat → T) (size : Nat) (i : Nat) (v : vec T) :
    Outcome (vec T) (vec T) :=
  if i < size then
    (push A v (array i)).bind fun v1 =>
      if i = INT_MAX then .undefined else extend_loop A array size (i + 1) v1
  else
    .ret v
termination_by size - i
decreasing_by omega

/-- `VName_extend`: `int i; for (i = 0; i < size; i++) push(v, array[i]); return v;`. -/
def extend [CType T] (A : Allocator) (v : vec T) (array : Nat → T) (size : Nat) :
    Outcome (vec T) (vec T) :=
  extend_loop A array size 0 v

/-- `VName_clear`: `v->size = 0;`. -/
def clear (v : vec T) : vec T :=
  { v with size := 0 }

/-- `VName_destroy`: `free(v->elements); v->size = v->capacity = 0;
v->elements = NULL;`.  The pointer is `NULL` afterwards (`block = none`). -/
def destroy (v : vec T) : vec T :=
  { v with block := none, size := 0, capacity := 0 }

/-- A run of `push` calls, one per element of `xs`, in order (the loop
`for (...) ivec_push(iv, i);` of `example.c`). -/
def pushes [CType T] (A : Allocator) (v : vec T) : List T → Outcome (vec T) (vec T)
  | [] => .ret v
  | x :: xs => (push A v x).bind fun v1 => pushes A v1 xs

/-- The value a call returned, if it returned. -/
def Outcome.returned {σ α : Type} : Outcome σ α → Option α
  | .ret a => some a
  | _ => none

/-- A full `int` vector whose capacity is above half the range of `size_t`. -/
def wrapVec : vec Int where
  elements := fun _ => 0
  block := some 32
  size := 2 ^ 63 + 8
  capacity := 2 ^ 63 + 8

/-- The `int` array holding 0, 1, 2, ... (what the loop of `example.c` pushes). -/
def iota (i : Nat) : Int := i

/-- A full `int` vector of the base capacity, holding 1, 2, ..., 16. -/
def full16 : vec Int where
  elements := fun i => (i : Int) + 1
  block := some 384
  size := 16
  capacity := 16

/-- An `int` vector of the base capacity holding 1, 2, 3. -/
def three16 : vec Int where
  elements := fun i => (i : Int) + 1
  block := some 384
  size := 3
  capacity := 16

/-- The vector `three16` after `i` calls of `pop`. -/
def popped (i : Nat) : vec Int :=
  { three16 with size := 3 - i }

/-- The `int` vector with `size = capacity = 2^64 - 1`, the largest `size_t`. -/
def maxVec : vec Int where
  elements := fun _ => 0
  block := some (2 ^ 64 - 4)
  size := 2 ^ 64 - 1
  capacity := 2 ^ 64 - 1

/-- Shape of a vector that grew from the base capacity 16 by pushes alone: the
capacity is `16 * 2^k` modulo `2^64`, the `size` elements fit into `16 * 2^k`,
and past the base more than half of that is used. -/
def capShape (v : vec T) : Prop :=
  ∃ k, v.capacity = 16 * 2 ^ k % SIZE_MOD ∧ v.size ≤ 16 * 2 ^ k ∧
    (k = 0 ∨ 16 * 2 ^ (k - 1) < v.size)

/-- Room for `r` further pushes without the doubling wrapping: the vector is
well formed and either its capacity is below `2^63` or `r` more elements fit. -/
def room (v : vec T) (r : Nat) : Prop :=
  v.size ≤ v.capacity ∧ 0 < v.capacity ∧ v.capacity < 2 ^ 64 ∧
    (v.capacity < 2 ^ 63 ∨ v.size + r ≤ v.capacity)

/-! ## The traversal macro `VFOR` -/

/-- How one run of the body of a loop ends when it does not end the program.
`next var v`: the body ran to its end (or to a `continue`) and leaves the
vector in state `v` and the loop variable at `&v->elements[var]`; the
`elements` pointer has the value it had before the body.  `moved v`: the body
ran to its end and left a pointer to another block in `elements` (a `realloc`
that moved the block, a `destroy`, an `init`), so that the loop variable no
longer points into the buffer.  `leave v`: the body left the loop with
`break`. -/
inductive Step (T : Type) where
  | next (var : Nat) (v : vec T) : Step T
  | moved (v : vec T) : Step T
  | leave (v : vec T) : Step T

/-- The loop of `VFOR(Var, Vec) body`, that is `for (VGTYPE(Vec) *Var =
&VELEM(Vec, 0); Var < &VELEM(Vec, VSIZE(Vec)); Var++) body`, from the cursor
`Var = &elements[p]`.  The test is evaluated before every step with the current
`elements` and `size`.  `body p v` is the loop body run with `Var =
&elements[p]` in state `v`; after it `Var++` moves on from where the body left
`Var`.  Once the body has left a pointer to another block in `elements`, `Var`
does not point into the buffer any more, and the test, which compares it with
a pointer into the buffer, is undefined behaviour.
The result is the list of the cursors at which the body ran, in order, and how
the loop ended; `none` when `fuel` steps did not finish the loop. -/
def VFOR_loop (body : Nat → vec T → Outcome (vec T) (Step T)) :
    Nat → Nat → vec T → Option (List Nat × Outcome (vec T) (vec T))
  | 0, _, _ => none
  | fuel + 1, p, v =>
    if p < v.size then
      match body p v with
      | .ret (.next var v1) => (VFOR_loop body fuel (var + 1) v1).map fun r => (p :: r.1, r.2)
      | .ret (.moved _) => some ([p], .undefined)
      | .ret (.leave v1) => some ([p], .ret v1)
      | .fatal s => some ([p], .fatal s)
      | .undefined => some ([p], .undefined)
    else
      some ([], .ret v)

/-- `VFOR(Var, Vec) body`: the loop started at `Var = &VELEM(Vec, 0)`. -/
def VFOR (body : Nat → vec T → Outcome (vec T) (Step T)) (fuel : Nat) (v : vec T) :
    Option (List Nat × Outcome (vec T) (vec T)) :=
  VFOR_loop body fuel 0 v

/-- The loop that the header comment of `vector.h` gives as the expansion of
`VFOR`, from counter value `i`: `for (int i = 0; i < v->size; i++) { int
*Varname = &v->elements[i]; ... body ... }`.  The counter is an `int`, so
`i++` at `INT_MAX` overflows; `Varname` is declared inside the braces and taken
anew from `v->elements` in every step, so what the body did to it or to the
`elements` pointer does not matter to the next step.  Same result format as
`VFOR_loop`. -/
def documented_loop (body : Nat → vec T → Outcome (vec T) (Step T)) :
    Nat → Nat → vec T → Option (List Nat × Outcome (vec T) (vec T))
  | 0, _, _ => none
  | fuel + 1, i, v =>
    if i < v.size then
      match body i v with
      | .ret (.next _ v1) =>
        if i = INT_MAX then some ([i], .undefined)
        else (documented_loop body fuel (i + 1) v1).map fun r => (i :: r.1, r.2)
      | .ret (.moved v1) =>
        if i = INT_MAX then some ([i], .undefined)
        else (documented_loop body fuel (i + 1) v1).map fun r => (i :: r.1, r.2)
      | .ret (.leave v1) => some ([i], .ret v1)
      | .fatal s => some ([i], .fatal s)
      | .undefined => some ([i], .undefined)
    else
      some ([], .ret v)

/-- The loop body `*Var = f(*Var);`. -/
def store_body (f : T → T) (p : Nat) (v : vec T) : Outcome (vec T) (Step T) :=
  .ret (.next p { v with elements := Function.update v.elements p (f (v.elements p)) })

/-- The loop body `VName_pop(Vec);` (the popped value is dropped). -/
def pop_body (p : Nat) (v : vec T) : Outcome (vec T) (Step T) :=
  (pop v).bind fun r => .ret (.next p r.2)

/-- The loop body that does nothing to the vector (as `printf("%d ", *i);`). -/
def skip_body (p : Nat) (v : vec T) : Outcome (vec T) (Step T) :=
  .ret (.next p v)

/-- The loop body `break;`. -/
def break_body (_p : Nat) (v : vec T) : Outcome (vec T) (Step T) :=
  .ret (.leave v)

/-- The loop body `Var++;`. -/
def advance_body (p : Nat) (v : vec T) : Outcome (vec T) (Step T) :=
  .ret (.next (p + 1) v)

/-- The loop body that moves the buffer into a new block: `VType *n =
malloc(Vec->capacity * sizeof *n); memcpy(n, Vec->elements, Vec->capacity *
sizeof *n); free(Vec->elements); Vec->elements = n;`. -/
def relocate_body [CType T] (_p : Nat) (v : vec T) : Outcome (vec T) (Step T) :=
  .ret (.moved { v with block := some (v.capacity * CType.sizeof T) })

/-! ## Sequences of calls -/

/-- A call of one of the operations that work on an initialised vector. -/
inductive Op (T : Type) where
  | push (e : T) : Op T
  | pop : Op T
  | top : Op T
  | extend (array : Nat → T) (size : Nat) : Op T
  | clear : Op T
  | grow : Op T

/-- The effect of one call on the vector (the value `pop` and `top` return is dropped). -/
def Op.run [CType T] (A : Allocator) : Op T → vec T → Outcome (vec T) (vec T)
  | .push e, v => Cvec.push A v e
  | .pop, v => (Cvec.pop v).bind fun r => .ret r.2
  | .top, v => (Cvec.top v).bind fun r => .ret r.2
  | .extend array size, v => Cvec.extend A v array size
  | .clear, v => .ret (Cvec.clear v)
  | .grow, v => Cvec.realloc A v

/-- A sequence of calls, run in order; it stops at the first call that does not return. -/
def run_ops [CType T] (A : Allocator) : List (Op T) → vec T → Outcome (vec T) (vec T)
  | [], v => .ret v
  | o :: os, v => (o.run A v).bind fun v1 => run_ops A os v1

/-- An element type of 32 bytes: `struct { long a, b, c, d; }`. -/
structure quad where
  a : Int
  b : Int
  c : Int
  d : Int

/-- The 32-byte `struct quad` as element type. -/
instance : CType quad where
  sizeof := 32
  zero := ⟨0, 0, 0, 0⟩
  ofBits := fun n =>
    ⟨signed 64 n, signed 64 (n / 2 ^ 64), signed 64 (n / 2 ^ 128), signed 64 (n / 2 ^ 192)⟩

/-- Uninitialised memory for a `struct quad` vector: every slot holds `{1, 1, 1, 1}`. -/
def staleQuad : vec quad where
  elements := fun _ => ⟨1, 1, 1, 1⟩
  block := none
  size := 7
  capacity := 3

/-- The `struct quad` array holding `{1, 1, 1, 1}`, `{2, 2, 2, 2}`, ... -/
def quads (i : Nat) : quad :=
  ⟨(i : Int) + 1, (i : Int) + 1, (i : Int) + 1, (i : Int) + 1⟩

/-- The run `init(&v); for (i = 0; i < 16; i++) push(&v, quads[i]);` on a
`struct quad` vector: it fills the vector up to its base capacity. -/
def quad16 : Outcome (vec quad) (vec quad) :=
  (init okAlloc staleQuad).bind fun v => pushes okAlloc v ((List.range 16).map quads)

/-- An `int` vector with `2^31 + 1` elements, all 0, in a buffer of capacity `2^32`. -/
def huge : vec Int where
  elements := fun _ => 0
  block := some (2 ^ 34)
  size := 2 ^ 31 + 1
  capacity := 2 ^ 32

/-! ## Basic facts about single calls -/

theorem Outcome.bind_ret {σ α β : Type} (a : α) (f : α → Outcome σ β) :
    (Outcome.ret a : Outcome σ α).bind f = f a := rfl

theorem Outcome.bind_fatal {σ α β : Type} (s : σ) (f : α → Outcome σ β) :
    (Outcome.fatal s : Outcome σ α).bind f = .fatal s := rfl

theorem Outcome.bind_undefined {σ α β : Type} (f : α → Outcome σ β) :
    (Outcome.undefined : Outcome σ α).bind f = .undefined := rfl

theorem SIZE_MOD_eq : SIZE_MOD = 18446744073709551616 := by
  norm_num [SIZE_MOD]

theorem okAlloc_succeeds : okAlloc.succeeds :=
  ⟨fun _ _ => rfl, fun _ _ => rfl⟩

/-- A slot that ends inside the old block and inside the new request is carried
over by `realloc`. -/
theorem realloc_slots_keep [CType T] (A : Allocator) (v : vec T) (bytes i : Nat)
    (h1 : (i + 1) * CType.sizeof T ≤ v.block.getD 0) (h2 : (i + 1) * CType.sizeof T ≤ bytes) :
    realloc_slots A v bytes i = v.elements i := by
  unfold realloc_slots
  rw [if_pos (le_min h1 h2)]

/-- The byte count of `realloc` when neither product wraps. -/
theorem grow_bytes_eq [CType T] (v : vec T) (h2 : 2 * v.capacity < SIZE_MOD)
    (hb : 2 * v.capacity * CType.sizeof T < SIZE_MOD) :
    grow_bytes v = 2 * v.capacity * CType.sizeof T := by
  unfold grow_bytes
  rw [Nat.mul_comm v.capacity 2, Nat.mod_eq_of_lt h2, Nat.mod_eq_of_lt hb]

/-- When the old block holds `capacity` slots and the byte count does not wrap,
`realloc` carries every slot below the old capacity over. -/
theorem realloc_slots_below [CType T] (A : Allocator) (v : vec T)
    (hblock : v.capacity * CType.sizeof T ≤ v.block.getD 0)
    (h2 : 2 * v.capacity < SIZE_MOD) (hb : 2 * v.capacity * CType.sizeof T < SIZE_MOD)
    (i : Nat) (hi : i < v.capacity) :
    realloc_slots A v (grow_bytes v) i = v.elements i := by
  have h1 : (i + 1) * CType.sizeof T ≤ v.capacity * CType.sizeof T :=
    Nat.mul_le_mul_right _ (by omega)
  have h3 : v.capacity * CType.sizeof T ≤ 2 * v.capacity * CType.sizeof T :=
    Nat.mul_le_mul_right _ (by omega)
  apply realloc_slots_keep
  · exact le_trans h1 hblock
  · rw [grow_bytes_eq v h2 hb]
    exact le_trans h1 h3

theorem realloc_ret [CType T] (A : Allocator) (v : vec T)
    (hr : A.realloc v.block (grow_bytes v) = true) :
    realloc A v = .ret { v with elements := realloc_slots A v (grow_bytes v)
                                block := some (grow_bytes v)
                                capacity := (v.capacity * 2) % SIZE_MOD } := by
  unfold grow_bytes at hr
  unfold realloc
  dsimp only
  rw [if_pos hr]
  rfl

theorem push_of_lt [CType T] (A : Allocator) (v : vec T) (e : T) (h : v.size < v.capacity) :
    push A v e = .ret { v with elements := Function.update v.elements v.size e
                               size := (v.size + 1) % SIZE_MOD } := by
  have h1 : ¬ v.size > v.capacity := by omega
  have h2 : ¬ v.size = v.capacity := by omega
  simp [push, h1, h2, Outcome.bind]

theorem push_of_eq [CType T] (A : Allocator) (v : vec T) (e : T)
    (h : v.size = v.capacity) (hr : A.realloc v.block (grow_bytes v) = true) :
    push A v e = .ret { elements := Function.update (realloc_slots A v (grow_bytes v)) v.size e
                        block := some (grow_bytes v)
                        size := (v.size + 1) % SIZE_MOD
                        capacity := (v.capacity * 2) % SIZE_MOD } := by
  have h1 : ¬ v.size > v.capacity := by omega
  unfold push
  rw [if_neg h1, if_pos h, realloc_ret A v hr, Outcome.bind_ret]

theorem push_of_gt [CType T] (A : Allocator) (v : vec T) (e : T) (h : v.capacity < v.size) :
    push A v e = .fatal v := by
  simp [push, h]

/-- What a returning `push` did, whatever the allocator: the store is the only
write after the `realloc` of a full vector. -/
theorem push_ret_inv [CType T] (A : Allocator) (v v1 : vec T) (e : T) (h : push A v e = .ret v1) :
    v.size ≤ v.capacity ∧
    v1.elements = Function.update
      (if v.size = v.capacity then realloc_slots A v (grow_bytes v) else v.elements) v.size e ∧
    v1.size = (v.size + 1) % SIZE_MOD ∧
    v1.capacity = if v.size = v.capacity then (v.capacity * 2) % SIZE_MOD else v.capacity := by
  by_cases hgt : v.capacity < v.size
  · rw [push_of_gt A v e hgt] at h
    exact Outcome.noConfusion h
  · by_cases heq : v.size = v.capacity
    · by_cases hr : A.realloc v.block (grow_bytes v) = true
      · rw [push_of_eq A v e heq hr] at h
        rw [← Outcome.ret.inj h]
        exact ⟨by omega, by rw [if_pos heq], rfl, by rw [if_pos heq]⟩
      · exfalso
        unfold push at h
        rw [if_neg (by omega), if_pos heq] at h
        unfold realloc at h
        unfold grow_bytes at hr
        dsimp only at h
        rw [if_neg hr] at h
        exact Outcome.noConfusion h
    · rw [push_of_lt A v e (by omega)] at h
      rw [← Outcome.ret.inj h]
      exact ⟨by omega, by rw [if_neg heq], rfl, by rw [if_neg heq]⟩

/-- One `push` on a vector with room to double: it returns, and the new state is known. -/
theorem push_step [CType T] (A : Allocator) (v : vec T) (e : T)
    (hA : v.size = v.capacity → A.realloc v.block (grow_bytes v) = true)
    (hsc : v.size ≤ v.capacity) (h0 : 0 < v.capacity) (hs : v.size < 2 ^ 63) :
    ∃ v1, push A v e = .ret v1 ∧
      v1.elements = Function.update
        (if v.size = v.capacity then realloc_slots A v (grow_bytes v) else v.elements) v.size e ∧
      v1.size = v.size + 1 ∧
      v1.capacity = (if v.size = v.capacity then 2 * v.capacity else v.capacity) ∧
      v1.size ≤ v1.capacity := by
  have hmod : (v.size + 1) % SIZE_MOD = v.size + 1 := by
    rw [SIZE_MOD_eq]; omega
  by_cases heq : v.size = v.capacity
  · have hcap : (v.capacity * 2) % SIZE_MOD = 2 * v.capacity := by
      rw [SIZE_MOD_eq]; omega
    refine ⟨_, push_of_eq A v e heq (hA heq), ?_, ?_, ?_, ?_⟩
    · rw [if_pos heq]
    · simpa using hmod
    · simp [heq, hcap]
    · simp only [hmod, hcap]; omega
  · refine ⟨_, push_of_lt A v e (by omega), ?_, ?_, ?_, ?_⟩
    · rw [if_neg heq]
    · simpa using hmod
    · simp [heq]
    · simp only [hmod]; omega

/-- One `push` on a vector whose block holds its slots: it returns, the element
is stored at index `size`, the elements below are kept, and a full vector has
its capacity and its block doubled.  For a vector that is not full nothing is
asked of the block. -/
theorem push_kept [CType T] (A : Allocator) (v : vec T) (e : T)
    (hA : v.size = v.capacity → A.realloc v.block (grow_bytes v) = true)
    (hsc : v.size ≤ v.capacity) (hs : v.size + 1 < SIZE_MOD)
    (hfull : v.size = v.capacity → v.capacity * CType.sizeof T ≤ v.block.getD 0 ∧
      2 * v.capacity < SIZE_MOD ∧ 2 * v.capacity * CType.sizeof T < SIZE_MOD) :
    ∃ v1, push A v e = .ret v1 ∧ v1.elements v.size = e ∧ v1.size = v.size + 1 ∧
      (∀ i, i < v.size → v1.elements i = v.elements i) ∧
      v1.capacity = (if v.size = v.capacity then 2 * v.capacity else v.capacity) ∧
      v1.block = (if v.size = v.capacity then some (2 * v.capacity * CType.sizeof T)
        else v.block) := by
  have hmod : (v.size + 1) % SIZE_MOD = v.size + 1 := Nat.mod_eq_of_lt hs
  by_cases heq : v.size = v.capacity
  · obtain ⟨hblock, h2, hb⟩ := hfull heq
    have hcap : (v.capacity * 2) % SIZE_MOD = 2 * v.capacity := by
      rw [Nat.mul_comm]
      exact Nat.mod_eq_of_lt h2
    refine ⟨_, push_of_eq A v e heq (hA heq), ?_, ?_, ?_, ?_, ?_⟩
    · simp
    · simpa using hmod
    · intro i hi
      have hne : i ≠ v.size := by omega
      simp only [Function.update_noteq hne]
      exact realloc_slots_below A v hblock h2 hb i (by omega)
    · simp [heq, hcap]
    · simp only [if_pos heq, grow_bytes_eq v h2 hb]
  · refine ⟨_, push_of_lt A v e (by omega), ?_, ?_, ?_, ?_, ?_⟩
    · simp
    · simpa using hmod
    · intro i hi
      have hne : i ≠ v.size := by omega
      simp only [Function.update_noteq hne]
    · simp [heq]
    · simp only [if_neg heq]

/-- A run of pushes that stays below `2^63` elements: every call returns, and
`size` counts them. -/
theorem pushes_run [CType T] (A : Allocator) (hA : A.succeeds) (xs : List T) (v : vec T)
    (hsc : v.size ≤ v.capacity) (h0 : 0 < v.capacity) (hN : v.size + xs.length ≤ 2 ^ 63) :
    ∃ v1, pushes A v xs = .ret v1 ∧ v1.size = v.size + xs.length ∧
      v1.size ≤ v1.capacity ∧ v.capacity ≤ v1.capacity := by
  induction xs generalizing v with
  | nil =>
    exact ⟨v, rfl, by simp, hsc, le_refl _⟩
  | cons x t ih =>
    have hlen : (x :: t).length = t.length + 1 := List.length_cons x t
    obtain ⟨v1, hp, -, hsz, hcap, hle⟩ :=
      push_step A v x (fun _ => hA.2 _ _) hsc h0 (by omega)
    have hcap1 : v.capacity ≤ v1.capacity := by
      rw [hcap]; split <;> omega
    obtain ⟨v2, hq, hsz2, hle2, hmono⟩ := ih v1 hle (by omega) (by omega)
    refine ⟨v2, ?_, by omega, hle2, by omega⟩
    simp [pushes, hp, Outcome.bind, hq]

/-- A run of pushes on a vector whose block holds its slots, as long as the
byte count of the buffer stays below `2^64`: every call returns, the pushed
elements sit behind the old ones in order, and the old ones are untouched. -/
theorem pushes_kept [CType T] (A : Allocator) (hA : A.succeeds) (xs : List T) (v : vec T)
    (hsc : v.size ≤ v.capacity) (h0 : 0 < v.capacity)
    (hblock : v.capacity * CType.sizeof T ≤ v.block.getD 0)
    (hN : v.size + xs.length ≤ 2 ^ 63)
    (hB : 2 * (v.size + xs.length) * CType.sizeof T < SIZE_MOD) :
    ∃ v1, pushes A v xs = .ret v1 ∧ v1.size = v.size + xs.length ∧
      (∀ i, i < v.size → v1.elements i = v.elements i) ∧
      (∀ j (h : j < xs.length), v1.elements (v.size + j) = xs[j]) := by
  induction xs generalizing v with
  | nil =>
    exact ⟨v, rfl, by simp, by simp, by simp⟩
  | cons x t ih =>
    have hlen : (x :: t).length = t.length + 1 := List.length_cons x t
    have hfull : v.size = v.capacity → v.capacity * CType.sizeof T ≤ v.block.getD 0 ∧
        2 * v.capacity < SIZE_MOD ∧ 2 * v.capacity * CType.sizeof T < SIZE_MOD := by
      intro heq
      refine ⟨hblock, by rw [SIZE_MOD_eq]; omega, ?_⟩
      have hX : 2 * v.capacity * CType.sizeof T ≤
          2 * (v.size + (x :: t).length) * CType.sizeof T :=
        Nat.mul_le_mul_right _ (by omega)
      exact lt_of_le_of_lt hX hB
    obtain ⟨v1, hp, hst, hsz, hkeep, hcap, hbl⟩ :=
      push_kept A v x (fun _ => hA.2 _ _) hsc (by rw [SIZE_MOD_eq]; omega) hfull
    have hsum : v1.size + t.length = v.size + (x :: t).length := by omega
    have hblock1 : v1.capacity * CType.sizeof T ≤ v1.block.getD 0 := by
      rw [hcap, hbl]
      by_cases heq : v.size = v.capacity
      · rw [if_pos heq, if_pos heq]
        exact le_refl _
      · rw [if_neg heq, if_neg heq]
        exact hblock
    have hsc1 : v1.size ≤ v1.capacity := by
      rw [hcap, hsz]; split <;> omega
    have h01 : 0 < v1.capacity := by
      rw [hcap]; split <;> omega
    obtain ⟨v2, hq, hsz2, hfr, hct⟩ :=
      ih v1 hsc1 h01 hblock1 (by omega) (by rw [hsum]; exact hB)
    refine ⟨v2, ?_, by omega, ?_, ?_⟩
    · simp [pushes, hp, Outcome.bind, hq]
    · intro i hi
      rw [hfr i (by omega), hkeep i hi]
    · intro j hj
      cases j with
      | zero =>
        rw [Nat.add_zero, hfr v.size (by omega), hst]
        simp
      | succ j =>
        have hj1 : j < t.length := by omega
        have := hct j hj1
        rw [hsz] at this
        rw [List.getElem_cons_succ, ← this]
        congr 1
        omega

/-- The state `init` leaves when `calloc` returns a block. -/
theorem init_ret [CType T] (A : Allocator) (hA : A.succeeds) (v : vec T) :
    ∃ v1, init A v = .ret v1 ∧ v1.size = 0 ∧ v1.capacity = 16 ∧
      v1.block = some (16 * sizeof_vec) := by
  have h : init A v = .ret
      { elements := fun i =>
          if (i + 1) * CType.sizeof T ≤ 0x10 * sizeof_vec then CType.zero else v.elements i
        block := some (0x10 * sizeof_vec)
        size := 0
        capacity := 0x10 } := by
    simp only [init, hA.1, if_true]
  exact ⟨_, h, rfl, rfl, rfl⟩

/-- What a returning `init` leaves. -/
theorem init_ret_inv [CType T] (A : Allocator) (v v1 : vec T) (h : init A v = .ret v1) :
    v1.size = 0 ∧ v1.capacity = 16 ∧ v1.block = some (16 * sizeof_vec) ∧
    ∀ i, v1.elements i =
      if (i + 1) * CType.sizeof T ≤ 16 * sizeof_vec then CType.zero else v.elements i := by
  unfold init at h
  split at h
  · rw [← Outcome.ret.inj h]
    exact ⟨rfl, rfl, rfl, fun _ => rfl⟩
  · exact Outcome.noConfusion h

/-- On a freshly initialised vector of an element type no larger than the
control structure, pushing `xs[0], ..., xs[N-1]` (allocation succeeding, the
buffer of `N` elements staying below `2^63` bytes) returns each time and gives
`size = N` and the element at every index `i < N` equal to `xs[i]`. -/
theorem pushes_fresh_small [CType T] (A : Allocator) (hA : A.succeeds) (v0 : vec T)
    (xs : List T) (hT : CType.sizeof T ≤ sizeof_vec) (hN : xs.length ≤ 2 ^ 63)
    (hB : 2 * xs.length * CType.sizeof T < SIZE_MOD) :
    ∃ v1 v2, init A v0 = .ret v1 ∧ pushes A v1 xs = .ret v2 ∧ v2.size = xs.length ∧
      ∀ i (h : i < xs.length), v2.elements i = xs[i] := by
  obtain ⟨v1, hi, hs, hc, hb⟩ := init_ret A hA v0
  have hblock : v1.capacity * CType.sizeof T ≤ v1.block.getD 0 := by
    rw [hc, hb]
    exact Nat.mul_le_mul_left _ hT
  obtain ⟨v2, hp, hsz, -, hct⟩ :=
    pushes_kept A hA xs v1 (by omega) (by omega) hblock (by omega)
      (by rw [hs, Nat.zero_add]; exact hB)
  refine ⟨v1, v2, hi, hp, by omega, ?_⟩
  intro i h
  have := hct i h
  rwa [hs, Nat.zero_add] at this

/-! ## C1: the contract of `push` -/

/-- C2 (the failing input): for the 32-byte element type `struct quad`, `init`
and 17 pushes of `quads[0], ..., quads[16]` all return and leave `size = 17`,
but the element at index 12 is not `quads[12]`: the block of `init` has 384
bytes, which is 12 slots, the pushes 13 to 16 store behind its end, and the
`realloc` of push 17 carries over the 384 bytes of the block only; the rest of
the new block is as the allocator `okAlloc` hands it out.  The elements at the
indices 11 and 16 are the pushed ones. -/
theorem pushes_fresh_quad :
    (((init okAlloc staleQuad).bind fun v =>
        pushes okAlloc v ((List.range 17).map quads)).returned.map fun s =>
      (s.size, s.elements 11, s.elements 12, s.elements 16))
      = some (17, quads 11, ⟨0, 0, 0, 0⟩, quads 16) ∧
    quads 12 = ⟨13, 13, 13, 13⟩ ∧
    16 * sizeof_vec < (12 + 1) * CType.sizeof quad :=
  ⟨rfl, rfl, by decide⟩

/-- `16 * 2^k` modulo `2^64`: itself for `k ≤ 59`, and 0 from `k = 60` on. -/
theorem pow_wrap (k : Nat) :
    (k ≤ 59 ∧ 16 * 2 ^ k % SIZE_MOD = 16 * 2 ^ k ∧ 16 * 2 ^ k ≤ 2 ^ 63) ∨
    (60 ≤ k ∧ 16 * 2 ^ k % SIZE_MOD = 0 ∧ 2 ^ 63 ≤ 16 * 2 ^ (k - 1)) := by
  by_cases hk59 : k ≤ 59
  · left
    have h1 : 2 ^ k ≤ 2 ^ 59 := Nat.pow_le_pow_right (by norm_num) hk59
    refine ⟨hk59, ?_, by omega⟩
    rw [SIZE_MOD_eq]
    exact Nat.mod_eq_of_lt (by omega)
  · right
    have h1 : k = 60 + (k - 60) := by omega
    have h2 : 16 * 2 ^ k = SIZE_MOD * 2 ^ (k - 60) := by
      rw [h1, pow_add, SIZE_MOD_eq, ← Nat.mul_assoc]
      norm_num
    have h3 : 2 ^ 59 ≤ 2 ^ (k - 1) := Nat.pow_le_pow_right (by norm_num) (by omega)
    refine ⟨by omega, ?_, by omega⟩
    rw [h2, Nat.mul_mod_right]

/-- A returning `push` keeps the shape of a vector that grew by pushes, and
counts one element more. -/
theorem push_capShape [CType T] (A : Allocator) (v v1 : vec T) (e : T) (hv : capShape v)
    (h : push A v e = .ret v1) : capShape v1 ∧ v1.size = v.size + 1 := by
  obtain ⟨hsc, -, hsz, hcap⟩ := push_ret_inv A v v1 e h
  obtain ⟨k, hk, hfit, hhalf⟩ := hv
  have hp1 : 1 ≤ 2 ^ k := Nat.one_le_two_pow
  rcases pow_wrap k with ⟨hk59, hmodk, hle⟩ | ⟨hk60, hmodk, hge⟩
  · rw [hmodk] at hk
    have hsz1 : v1.size = v.size + 1 := by
      rw [hsz, SIZE_MOD_eq]
      omega
    by_cases heq : v.size = v.capacity
    · rw [if_pos heq] at hcap
      refine ⟨⟨k + 1, ?_, ?_, Or.inr ?_⟩, hsz1⟩
      · rw [hcap, hk, pow_succ]
        congr 1
        ring
      · rw [hsz1, pow_succ]
        omega
      · rw [hsz1, Nat.add_sub_cancel]
        omega
    · rw [if_neg heq] at hcap
      refine ⟨⟨k, ?_, by omega, ?_⟩, hsz1⟩
      · rw [hcap, hk, hmodk]
      · rcases hhalf with h | h
        · exact Or.inl h
        · exact Or.inr (by omega)
  · exfalso
    rw [hmodk] at hk
    rcases hhalf with h | h
    · omega
    · omega

/-- A returning run of pushes keeps the shape of a vector that grew by pushes,
and counts the elements. -/
theorem pushes_capShape [CType T] (A : Allocator) (xs : List T) :
    ∀ (v v1 : vec T), capShape v → pushes A v xs = .ret v1 →
      capShape v1 ∧ v1.size = v.size + xs.length := by
  induction xs with
  | nil =>
    intro v v1 hv h
    rw [← Outcome.ret.inj h]
    exact ⟨hv, rfl⟩
  | cons x t ih =>
    intro v v1 hv h
    simp only [pushes] at h
    cases hp : push A v x with
    | ret v2 =>
      rw [hp, Outcome.bind_ret] at h
      obtain ⟨hv2, hs2⟩ := push_capShape A v v2 x hv hp
      obtain ⟨hv1, hs1⟩ := ih v2 v1 hv2 h
      refine ⟨hv1, ?_⟩
      rw [hs1, hs2, List.length_cons]
      omega
    | fatal s =>
      rw [hp, Outcome.bind_fatal] at h
      exact Outcome.noConfusion h
    | undefined =>
      rw [hp, Outcome.bind_undefined] at h
      exact Outcome.noConfusion h

/-- C3: for every `N`, after `N` pushes onto a freshly initialised vector the
capacity is the smallest number of the form `16 * 2^k` that is `≥ N`, as a
`size_t` (that is, modulo `2^64`; for `N ≤ 2^63` it is that number itself); in
particular it is 16 after 4 pushes and 32768 after 30000 pushes.  The pushes
return when allocation succeeds, the element type is no larger than the
control structure, and the buffer stays below `2^63` bytes. -/
theorem capacity_after_pushes [CType T] (A : Allocator) (v0 : vec T) (xs : List T) :
    (∀ v1 v2, init A v0 = .ret v1 → pushes A v1 xs = .ret v2 →
      (∃ k, xs.length ≤ 16 * 2 ^ k ∧ (∀ j, xs.length ≤ 16 * 2 ^ j → k ≤ j) ∧
        v2.capacity = 16 * 2 ^ k % SIZE_MOD ∧
        (xs.length ≤ 2 ^ 63 → v2.capacity = 16 * 2 ^ k)) ∧
      (xs.length = 4 → v2.capacity = 16) ∧ (xs.length = 30000 → v2.capacity = 32768)) ∧
    (A.succeeds → CType.sizeof T ≤ sizeof_vec → xs.length ≤ 2 ^ 63 →
      2 * xs.length * CType.sizeof T < SIZE_MOD →
      ∃ v1 v2, init A v0 = .ret v1 ∧ pushes A v1 xs = .ret v2) := by
  constructor
  · intro v1 v2 hi hp
    obtain ⟨hs, hc, -, -⟩ := init_ret_inv A v0 v1 hi
    have hbase : capShape v1 := ⟨0, by rw [hc, SIZE_MOD_eq]; norm_num, by omega, Or.inl rfl⟩
    obtain ⟨⟨k, hk, hfit, hhalf⟩, hsz⟩ := pushes_capShape A xs v1 v2 hbase hp
    rw [hs, Nat.zero_add] at hsz
    rw [hsz] at hfit hhalf
    have hleast : ∀ j, xs.length ≤ 16 * 2 ^ j → k ≤ j := by
      intro j hj
      rcases hhalf with h | h
      · omega
      · have h2 : 2 ^ (k - 1) < 2 ^ j := by omega
        have h3 : k - 1 < j := (Nat.pow_lt_pow_iff_right (by norm_num)).mp h2
        omega
    have hexact : xs.length ≤ 2 ^ 63 → v2.capacity = 16 * 2 ^ k := by
      intro hN
      rcases pow_wrap k with ⟨-, hmodk, -⟩ | ⟨hk60, -, hge⟩
      · rw [hk, hmodk]
      · exfalso
        rcases hhalf with h | h
        · omega
        · omega
    refine ⟨⟨k, hfit, hleast, hk, hexact⟩, ?_, ?_⟩
    · intro h4
      have hk0 : k = 0 := by
        have := hleast 0 (by omega)
        omega
      rw [hexact (by omega), hk0]
      norm_num
    · intro h3
      have hup : k ≤ 11 := hleast 11 (by rw [h3]; norm_num)
      have hk11 : ¬ k ≤ 10 := by
        intro hk10
        have : 2 ^ k ≤ 2 ^ 10 := Nat.pow_le_pow_right (by norm_num) hk10
        omega
      have hk : k = 11 := by omega
      rw [hexact (by omega), hk]
      norm_num
  · intro hA _ hN _
    obtain ⟨v1, hi, hs, hc, -⟩ := init_ret A hA v0
    obtain ⟨v2, hp, -⟩ := pushes_run A hA xs v1 (by omega) (by omega) (by omega)
    exact ⟨v1, v2, hi, hp⟩

/-- C3, witness: the capacity after the four pushes 1, 2, 3, 4 of `example.c`. -/
theorem capacity_after_pushes_witness :
    ∃ v1 v2, init okAlloc wrapVec = .ret v1 ∧ pushes okAlloc v1 [1, 2, 3, 4] = .ret v2 ∧
      [(1 : Int), 2, 3, 4].length = 4 ∧ v2.capacity = 16 :=
  ⟨_, _, rfl, rfl, rfl,
    ((capacity_after_pushes okAlloc wrapVec [1, 2, 3, 4]).1 _ _ rfl rfl).2.1 rfl⟩

/-! ## C4 to C7, C9: `pop`, `top`, `clear` -/

/-- On a vector whose block holds its slots, `push(v, x)` (allocation
succeeding) followed by `pop(v)` returns `x`, leaves `size` equal to its value
before the push, and leaves every element below that size unchanged. -/
theorem push_pop_kept [CType T] (A : Allocator) (v : vec T) (x : T)
    (hA : v.size = v.capacity → A.realloc v.block (grow_bytes v) = true)
    (hsc : v.size ≤ v.capacity) (hs : v.size + 1 < SIZE_MOD)
    (hfull : v.size = v.capacity → v.capacity * CType.sizeof T ≤ v.block.getD 0 ∧
      2 * v.capacity < SIZE_MOD ∧ 2 * v.capacity * CType.sizeof T < SIZE_MOD) :
    ∃ v1 v2, push A v x = .ret v1 ∧ pop v1 = .ret (x, v2) ∧ v2.size = v.size ∧
      ∀ i, i < v.size → v2.elements i = v.elements i := by
  obtain ⟨v1, hp, hst, hsz, hkeep, -, -⟩ := push_kept A v x hA hsc hs hfull
  have hne : ¬ v1.size = 0 := by omega
  refine ⟨v1, { v1 with size := v1.size - 1 }, hp, ?_, ?_, hkeep⟩
  · simp only [pop, hne, if_false]
    rw [hsz, Nat.add_sub_cancel, hst]
  · simp only [hsz, Nat.add_sub_cancel]

/-- C4 (the failing input): on the full `struct quad` vector that `init` and 16
pushes leave (`size = capacity = 16`), `push(v, x)` followed by `pop(v)` returns
`x` and leaves `size = 16`, but the element at index 12, below that size, is no
longer `quads[12]`: the block of `init` has 384 bytes, which is 12 slots, and
the `realloc` of the push carries over these only; the rest of the new block is
as the allocator `okAlloc` hands it out. -/
theorem push_pop_quad :
    (quad16.returned.map fun s => (s.size, s.capacity, s.elements 12))
      = some (16, 16, quads 12) ∧
    ((quad16.bind fun v => (push okAlloc v ⟨7, 7, 7, 7⟩).bind pop).returned.map fun r =>
      (r.1, r.2.size, r.2.elements 12)) = some (⟨7, 7, 7, 7⟩, 16, ⟨0, 0, 0, 0⟩) ∧
    quads 12 = ⟨13, 13, 13, 13⟩ :=
  ⟨rfl, rfl, rfl⟩

/-- C5: for every vector with `size > 0`, `pop` returns the element at index
`size - 1`, decrements `size` by exactly one, and leaves `capacity` and the
content of every buffer slot (the slot just removed included) unchanged. -/
theorem pop_contract (v : vec T) (h : 0 < v.size) :
    ∃ v1, pop v = .ret (v.elements (v.size - 1), v1) ∧ v1.size + 1 = v.size ∧
      v1.capacity = v.capacity ∧ (∀ i, v1.elements i = v.elements i) ∧ v1.block = v.block := by
  have hne : ¬ v.size = 0 := by omega
  refine ⟨{ v with size := v.size - 1 }, ?_, ?_, rfl, fun _ => rfl, rfl⟩
  · simp only [pop, hne, if_false]
  · simp only; omega

/-- C5, witness: `pop` on a vector holding 1, 2, 3. -/
theorem pop_contract_witness :
    0 < three16.size ∧
    ∃ v1, pop three16 = .ret (three16.elements (three16.size - 1), v1) ∧
      v1.size + 1 = three16.size ∧ v1.capacity = three16.capacity ∧
      (∀ i, v1.elements i = three16.elements i) ∧ v1.block = three16.block :=
  ⟨by decide, pop_contract three16 (by decide)⟩

/-- C6: the precondition checks are exactly these: `pop` is aborted iff
`size = 0`, `top` is aborted iff `size = 0`, and `push` (allocation succeeding)
is aborted iff `size > capacity` on entry; in each of these cases the state in
which the process is aborted is the state on entry. -/
theorem fatal_iff [CType T] (A : Allocator) (v : vec T) (e : T)
    (hA : v.size = v.capacity → A.realloc v.block (grow_bytes v) = true) :
    ((∃ s, pop v = .fatal s) ↔ v.size = 0) ∧ (∀ s, pop v = .fatal s → s = v) ∧
    ((∃ s, top v = .fatal s) ↔ v.size = 0) ∧ (∀ s, top v = .fatal s → s = v) ∧
    ((∃ s, push A v e = .fatal s) ↔ v.size > v.capacity) ∧
    (∀ s, push A v e = .fatal s → s = v) := by
  have hpush : ∀ s, push A v e = .fatal s → v.size > v.capacity ∧ s = v := by
    intro s hs
    by_cases hgt : v.capacity < v.size
    · rw [push_of_gt A v e hgt] at hs
      exact ⟨hgt, (Outcome.fatal.inj hs).symm⟩
    · by_cases heq : v.size = v.capacity
      · rw [push_of_eq A v e heq (hA heq)] at hs
        exact Outcome.noConfusion hs
      · rw [push_of_lt A v e (by omega)] at hs
        exact Outcome.noConfusion hs
  refine ⟨⟨?_, ?_⟩, ?_, ⟨?_, ?_⟩, ?_, ⟨?_, ?_⟩, ?_⟩
  · rintro ⟨s, hs⟩
    by_contra hne
    simp [pop, hne] at hs
  · intro h0
    exact ⟨v, by simp [pop, h0]⟩
  · intro s hs
    by_cases h0 : v.size = 0
    · simp [pop, h0] at hs
      exact hs.symm
    · simp [pop, h0] at hs
  · rintro ⟨s, hs⟩
    by_contra hne
    simp [top, hne] at hs
  · intro h0
    exact ⟨v, by simp [top, h0]⟩
  · intro s hs
    by_cases h0 : v.size = 0
    · simp [top, h0] at hs
      exact hs.symm
    · simp [top, h0] at hs
  · rintro ⟨s, hs⟩
    exact (hpush s hs).1
  · intro hgt
    exact ⟨v, push_of_gt A v e hgt⟩
  · intro s hs
    exact (hpush s hs).2

/-- C6, witness: the three checks on a full vector of capacity 16. -/
theorem fatal_iff_witness :
    (full16.size = full16.capacity → okAlloc.realloc full16.block (grow_bytes full16) = true) ∧
    (((∃ s, pop full16 = .fatal s) ↔ full16.size = 0) ∧
      (∀ s, pop full16 = .fatal s → s = full16) ∧
      ((∃ s, top full16 = .fatal s) ↔ full16.size = 0) ∧
      (∀ s, top full16 = .fatal s → s = full16) ∧
      ((∃ s, push okAlloc full16 7 = .fatal s) ↔ full16.size > full16.capacity) ∧
      (∀ s, push okAlloc full16 7 = .fatal s → s = full16)) :=
  ⟨fun _ => rfl, fatal_iff okAlloc full16 7 (fun _ => rfl)⟩

/-- C7: for every vector with `size > 0`, `top` returns the element at index
`size - 1` and leaves `size`, `capacity` and all elements unchanged (the state
it returns in is the state on entry), so a second call of `top` returns the
same value. -/
theorem top_contract (v : vec T) (h : 0 < v.size) :
    top v = .ret (v.elements (v.size - 1), v) ∧
    ∀ x v1, top v = .ret (x, v1) → top v1 = .ret (x, v1) := by
  have hne : ¬ v.size = 0 := by omega
  have ht : top v = .ret (v.elements (v.size - 1), v) := by
    simp only [top, hne, if_false]
  refine ⟨ht, ?_⟩
  intro x v1 h1
  rw [ht] at h1
  have h2 := Outcome.ret.inj h1
  have hx : v.elements (v.size - 1) = x := congrArg Prod.fst h2
  have hv : v = v1 := congrArg Prod.snd h2
  subst hv
  rw [← hx]
  exact ht

/-- C7, witness: `top` on a vector holding 1, 2, 3. -/
theorem top_contract_witness :
    0 < three16.size ∧
    top three16 = .ret (three16.elements (three16.size - 1), three16) ∧
    ∀ x v1, top three16 = .ret (x, v1) → top v1 = .ret (x, v1) :=
  ⟨by decide, top_contract three16 (by decide)⟩

/-- C9: for every initialised vector (`size ≤ capacity`, `capacity > 0`),
`clear` sets `size` to 0 and leaves `capacity` and every buffer slot unchanged,
and a `push` right after `clear` returns without growing the buffer: the
capacity after that push is the capacity before `clear`. -/
theorem clear_contract [CType T] (A : Allocator) (v : vec T) (e : T)
    (_hsc : v.size ≤ v.capacity) (h0 : 0 < v.capacity) :
    (clear v).size = 0 ∧ (clear v).capacity = v.capacity ∧
    (∀ i, (clear v).elements i = v.elements i) ∧ (clear v).block = v.block ∧
    ∃ v1, push A (clear v) e = .ret v1 ∧ v1.capacity = v.capacity ∧ v1.block = v.block := by
  refine ⟨rfl, rfl, fun _ => rfl, rfl, ?_⟩
  have hlt : (clear v).size < (clear v).capacity := h0
  exact ⟨_, push_of_lt A (clear v) e hlt, rfl, rfl⟩

/-- C9, witness: `clear` then `push` on a vector holding 1, 2, 3. -/
theorem clear_contract_witness :
    three16.size ≤ three16.capacity ∧ 0 < three16.capacity ∧
    (clear three16).size = 0 ∧ (clear three16).capacity = three16.capacity ∧
    (∀ i, (clear three16).elements i = three16.elements i) ∧
    (clear three16).block = three16.block ∧
    ∃ v1, push okAlloc (clear three16) 7 = .ret v1 ∧ v1.capacity = three16.capacity ∧
      v1.block = three16.block :=
  ⟨by decide, by decide, clear_contract okAlloc three16 7 (by decide) (by decide)⟩

/-! ## C8, C10: `extend` and the invariant `size ≤ capacity` -/

theorem extend_loop_unfold [CType T] (A : Allocator) (array : Nat → T) (k i : Nat) (v : vec T) :
    extend_loop A array k i v =
      if i < k then
        (push A v (array i)).bind fun v1 =>
          if i = INT_MAX then .undefined else extend_loop A array k (i + 1) v1
      else .ret v := by
  rw [extend_loop]

theorem INT_MAX_eq : INT_MAX = 2147483647 := by
  norm_num [INT_MAX]

/-- While the counter stays below `INT_MAX`, the loop of `extend` is the run of
pushes of `array[i], ..., array[k-1]`. -/
theorem extend_loop_eq_pushes [CType T] (A : Allocator) (array : Nat → T) (k : Nat)
    (hk : k ≤ INT_MAX) (n : Nat) :
    ∀ (i : Nat) (v : vec T), k - i = n →
      extend_loop A array k i v = pushes A v ((List.range' i (k - i)).map array) := by
  induction n with
  | zero =>
    intro i v hn
    have hlt : ¬ i < k := by omega
    rw [extend_loop_unfold, if_neg hlt, hn]
    rfl
  | succ n ih =>
    intro i v hn
    have hlt : i < k := by omega
    have hne : ¬ i = INT_MAX := by omega
    have hrec : k - (i + 1) = n := by omega
    rw [extend_loop_unfold, if_pos hlt, hn, List.range'_succ, List.map_cons, pushes]
    congr 1
    funext v1
    rw [if_neg hne, ih (i + 1) v1 hrec, hrec]

/-- For a count `k ≤ INT_MAX`, `extend(v, array, k)` is the run of `k` pushes
of `array[0], ..., array[k-1]`, whatever the state and the allocator. -/
theorem extend_eq_pushes [CType T] (A : Allocator) (v : vec T) (array : Nat → T) (k : Nat)
    (hk : k ≤ INT_MAX) :
    extend A v array k = pushes A v ((List.range k).map array) := by
  rw [extend, extend_loop_eq_pushes A array k hk k 0 v rfl, List.range_eq_range']
  rfl

theorem push_returns [CType T] (A : Allocator) (hA : A.succeeds) (v : vec T) (e : T)
    (hsc : v.size ≤ v.capacity) : ∃ v1, push A v e = .ret v1 := by
  by_cases heq : v.size = v.capacity
  · exact ⟨_, push_of_eq A v e heq (hA.2 _ _)⟩
  · exact ⟨_, push_of_lt A v e (by omega)⟩

/-- A returning `push` uses up one unit of room. -/
theorem room_push [CType T] (A : Allocator) (v v1 : vec T) (e : T) (r : Nat)
    (hr : r + 1 ≤ 2 ^ 62) (hv : room v (r + 1)) (h : push A v e = .ret v1) : room v1 r := by
  obtain ⟨-, -, hsz, hcap⟩ := push_ret_inv A v v1 e h
  obtain ⟨hsc, h0, h64, hroom⟩ := hv
  rw [SIZE_MOD_eq] at hsz hcap
  unfold room
  by_cases heq : v.size = v.capacity
  · rw [if_pos heq] at hcap
    omega
  · rw [if_neg heq] at hcap
    omega

/-- A returning run of the loop of `extend` keeps `size ≤ capacity`. -/
theorem extend_loop_ret_inv [CType T] (A : Allocator) (array : Nat → T) (k : Nat) (n : Nat) :
    ∀ (i : Nat) (v v1 : vec T), k - i = n → i ≤ INT_MAX → room v (INT_MAX - i) →
      extend_loop A array k i v = .ret v1 → v1.size ≤ v1.capacity := by
  induction n with
  | zero =>
    intro i v v1 hn _ hv h
    have hlt : ¬ i < k := by omega
    rw [extend_loop_unfold, if_neg hlt] at h
    rw [← Outcome.ret.inj h]
    exact hv.1
  | succ n ih =>
    intro i v v1 hn hi hv h
    have hlt : i < k := by omega
    rw [extend_loop_unfold, if_pos hlt] at h
    cases hp : push A v (array i) with
    | ret v2 =>
      rw [hp, Outcome.bind_ret] at h
      by_cases hmax : i = INT_MAX
      · rw [if_pos hmax] at h
        exact Outcome.noConfusion h
      · rw [if_neg hmax] at h
        have hr : INT_MAX - i = (INT_MAX - (i + 1)) + 1 := by omega
        rw [hr] at hv
        have hv2 := room_push A v v2 (array i) (INT_MAX - (i + 1))
          (by rw [INT_MAX_eq]; omega) hv hp
        exact ih (i + 1) v2 v1 (by omega) (by omega) hv2 h
    | fatal s =>
      rw [hp, Outcome.bind_fatal] at h
      exact Outcome.noConfusion h
    | undefined =>
      rw [hp, Outcome.bind_undefined] at h
      exact Outcome.noConfusion h

/-- With a count above `INT_MAX` the loop of `extend` runs into the overflow
of its `int` counter, on every vector on which the pushes before it return. -/
theorem extend_loop_overflow [CType T] (A : Allocator) (hA : A.succeeds) (array : Nat → T)
    (k : Nat) (hk : INT_MAX < k) (n : Nat) :
    ∀ (i : Nat) (v : vec T), INT_MAX - i = n → i ≤ INT_MAX → room v (INT_MAX - i + 1) →
      extend_loop A array k i v = .undefined := by
  induction n with
  | zero =>
    intro i v hn hi hv
    have hlt : i < k := by omega
    have hmax : i = INT_MAX := by omega
    obtain ⟨v1, hp⟩ := push_returns A hA v (array i) hv.1
    rw [extend_loop_unfold, if_pos hlt, hp, Outcome.bind_ret, if_pos hmax]
  | succ n ih =>
    intro i v hn hi hv
    have hlt : i < k := by omega
    have hmax : ¬ i = INT_MAX := by omega
    obtain ⟨v1, hp⟩ := push_returns A hA v (array i) hv.1
    have hv1 := room_push A v v1 (array i) (INT_MAX - i) (by rw [INT_MAX_eq]; omega) hv hp
    have hr : INT_MAX - i = INT_MAX - (i + 1) + 1 := by omega
    rw [hr] at hv1
    rw [extend_loop_unfold, if_pos hlt, hp, Outcome.bind_ret, if_neg hmax]
    exact ih (i + 1) v1 (by omega) (by omega) hv1

/-- C8 (the failing input): `extend` on a fresh `int` vector with the count
`2^31 + 1` runs into the signed overflow of its `int` counter `i`: after the
push of `array[INT_MAX]`, the `2^31`-th push, `i++` is undefined behaviour, and
`array[2^31]` is never pushed; `2^31 + 1` calls of `push` with the same
elements all return and leave `size = 2^31 + 1`. -/
theorem extend_counter_overflow :
    ((init okAlloc wrapVec).bind fun v => extend okAlloc v iota (2 ^ 31 + 1))
      = .undefined ∧
    (((init okAlloc wrapVec).bind fun v =>
        pushes okAlloc v ((List.range (2 ^ 31 + 1)).map iota)).returned.map
      fun s => s.size) = some (2 ^ 31 + 1) := by
  obtain ⟨v1, hi, hs, hc, -⟩ := init_ret okAlloc okAlloc_succeeds wrapVec
  have hlen : ((List.range (2 ^ 31 + 1)).map iota).length = 2 ^ 31 + 1 := by
    rw [List.length_map, List.length_range]
  constructor
  · rw [hi, Outcome.bind_ret, extend]
    refine extend_loop_overflow okAlloc okAlloc_succeeds _ (2 ^ 31 + 1)
      (by rw [INT_MAX_eq]; norm_num) INT_MAX 0 v1 rfl (Nat.zero_le _) ?_
    refine ⟨by omega, by omega, by omega, Or.inl (by omega)⟩
  · obtain ⟨v2, hp, hsz, -⟩ :=
      pushes_run okAlloc okAlloc_succeeds ((List.range (2 ^ 31 + 1)).map iota) v1
        (by omega) (by omega) (by rw [hlen, hs]; norm_num)
    rw [hi, Outcome.bind_ret, hp]
    simp only [Outcome.returned, Option.map, hsz, hlen, hs, Nat.zero_add]

/-- C10 (as amended): for every vector state with `size ≤ capacity` and
`0 < capacity < 2^63`, each of `init`, `grow` (`realloc`), `push`, `pop`,
`top`, `extend`, `clear` and `destroy`, when it returns, leaves a state with
`size ≤ capacity`. -/
theorem size_le_capacity_kept [CType T] (A : Allocator) (v : vec T)
    (hsc : v.size ≤ v.capacity) (h0 : 0 < v.capacity) (h63 : v.capacity < 2 ^ 63) :
    (∀ v1, init A v = .ret v1 → v1.size ≤ v1.capacity) ∧
    (∀ v1, realloc A v = .ret v1 → v1.size ≤ v1.capacity) ∧
    (∀ e v1, push A v e = .ret v1 → v1.size ≤ v1.capacity) ∧
    (∀ x v1, pop v = .ret (x, v1) → v1.size ≤ v1.capacity) ∧
    (∀ x v1, top v = .ret (x, v1) → v1.size ≤ v1.capacity) ∧
    (∀ array k v1, extend A v array k = .ret v1 → v1.size ≤ v1.capacity) ∧
    (clear v).size ≤ (clear v).capacity ∧
    (destroy v).size ≤ (destroy v).capacity := by
  have hroom : ∀ r, room v r := fun r => ⟨hsc, h0, by omega, Or.inl h63⟩
  refine ⟨?_, ?_, ?_, ?_, ?_, ?_, Nat.zero_le _, Nat.le_refl _⟩
  · intro v1 h
    unfold init at h
    split at h
    · rw [← Outcome.ret.inj h]
      exact Nat.zero_le _
    · exact Outcome.noConfusion h
  · intro v1 h
    unfold realloc at h
    dsimp only at h
    split at h
    · rw [← Outcome.ret.inj h, SIZE_MOD_eq]
      dsimp only
      omega
    · exact Outcome.noConfusion h
  · intro e v1 h
    exact (room_push A v v1 e 0 (by norm_num) (hroom 1) h).1
  · intro x v1 h
    unfold pop at h
    split at h
    · exact Outcome.noConfusion h
    · obtain ⟨-, h2⟩ := Prod.mk.inj (Outcome.ret.inj h)
      rw [← h2]
      dsimp only
      omega
  · intro x v1 h
    unfold top at h
    split at h
    · exact Outcome.noConfusion h
    · obtain ⟨-, h2⟩ := Prod.mk.inj (Outcome.ret.inj h)
      rw [← h2]
      exact hsc
  · intro array k v1 h
    exact extend_loop_ret_inv A array k k 0 v v1 rfl (Nat.zero_le _) (hroom _) h

/-- C10, witness: the eight operations on a full vector of capacity 16. -/
theorem size_le_capacity_kept_witness :
    full16.size ≤ full16.capacity ∧ 0 < full16.capacity ∧ full16.capacity < 2 ^ 63 ∧
    (∀ v1, init okAlloc full16 = .ret v1 → v1.size ≤ v1.capacity) ∧
    (∀ v1, realloc okAlloc full16 = .ret v1 → v1.size ≤ v1.capacity) ∧
    (∀ e v1, push okAlloc full16 e = .ret v1 → v1.size ≤ v1.capacity) ∧
    (∀ x v1, pop full16 = .ret (x, v1) → v1.size ≤ v1.capacity) ∧
    (∀ x v1, top full16 = .ret (x, v1) → v1.size ≤ v1.capacity) ∧
    (∀ array k v1, extend okAlloc full16 array k = .ret v1 → v1.size ≤ v1.capacity) ∧
    (clear full16).size ≤ (clear full16).capacity ∧
    (destroy full16).size ≤ (destroy full16).capacity :=
  ⟨by decide, by decide, by norm_num [full16],
    size_le_capacity_kept okAlloc full16 (by decide) (by decide) (by norm_num [full16])⟩

/-- C10, counterexample: `destroy` leaves `size = capacity = 0`, so `size ≤
capacity`; the `push` that follows doubles the capacity 0 to 0, stores the
element at index 0 and returns with `size = 1 > capacity = 0`. -/
theorem size_le_capacity_counterexample :
    (destroy full16).size ≤ (destroy full16).capacity ∧
    ((push okAlloc (destroy full16) 7).returned.map fun s => (s.size, s.capacity))
      = some (1, 0) := by
  refine ⟨Nat.le_refl _, ?_⟩
  rw [push_of_eq okAlloc (destroy full16) 7 rfl rfl]
  norm_num [destroy, full16, SIZE_MOD, Outcome.returned]

/-! ## C11, C12, C17, C18: the traversal `VFOR` -/

theorem VFOR_loop_succ (body : Nat → vec T → Outcome (vec T) (Step T))
    (fuel p : Nat) (v : vec T) :
    VFOR_loop body (fuel + 1) p v =
      if p < v.size then
        match body p v with
        | .ret (.next var v1) => (VFOR_loop body fuel (var + 1) v1).map fun r => (p :: r.1, r.2)
        | .ret (.moved _) => some ([p], .undefined)
        | .ret (.leave v1) => some ([p], .ret v1)
        | .fatal s => some ([p], .fatal s)
        | .undefined => some ([p], .undefined)
      else some ([], .ret v) := rfl

theorem documented_loop_succ (body : Nat → vec T → Outcome (vec T) (Step T))
    (fuel i : Nat) (v : vec T) :
    documented_loop body (fuel + 1) i v =
      if i < v.size then
        match body i v with
        | .ret (.next _ v1) =>
          if i = INT_MAX then some ([i], .undefined)
          else (documented_loop body fuel (i + 1) v1).map fun r => (i :: r.1, r.2)
        | .ret (.moved v1) =>
          if i = INT_MAX then some ([i], .undefined)
          else (documented_loop body fuel (i + 1) v1).map fun r => (i :: r.1, r.2)
        | .ret (.leave v1) => some ([i], .ret v1)
        | .fatal s => some ([i], .fatal s)
        | .undefined => some ([i], .undefined)
      else some ([], .ret v) := rfl

/-- A step of the loop of `VFOR` whose body runs to its end: the loop goes on
behind the cursor the body left. -/
theorem VFOR_loop_next (body : Nat → vec T → Outcome (vec T) (Step T))
    (fuel p q : Nat) (v v1 : vec T) (hlt : p < v.size) (hb : body p v = .ret (.next q v1)) :
    VFOR_loop body (fuel + 1) p v =
      (VFOR_loop body fuel (q + 1) v1).map fun r => (p :: r.1, r.2) := by
  rw [VFOR_loop_succ, if_pos hlt, hb]

/-- The loop of `VFOR` returns when the cursor is not below the size. -/
theorem VFOR_loop_done (body : Nat → vec T → Outcome (vec T) (Step T))
    (fuel p : Nat) (v : vec T) (hlt : ¬ p < v.size) :
    VFOR_loop body (fuel + 1) p v = some ([], .ret v) := by
  rw [VFOR_loop_succ, if_neg hlt]

/-- The loop of `VFOR` follows every sequence of states `st` in which, for each
cursor `i < k`, the cursor is below the size of `st i` and the body, run at
`i` in `st i`, runs to its end leaving the cursor where it was and the state
`st (i + 1)`, and in which the cursor `k` is not below the size of `st k`: it
runs the body at `p, ..., k - 1` and returns in `st k`. -/
theorem VFOR_loop_run (body : Nat → vec T → Outcome (vec T) (Step T)) (st : Nat → vec T)
    (k : Nat)
    (hstep : ∀ i, i < k → i < (st i).size ∧ body i (st i) = .ret (.next i (st (i + 1))))
    (hend : ¬ k < (st k).size) (n : Nat) :
    ∀ (p fuel : Nat), k - p = n → p ≤ k → n < fuel →
      VFOR_loop body fuel p (st p) = some (List.range' p n, .ret (st k)) := by
  induction n with
  | zero =>
    intro p fuel hn hp hf
    obtain ⟨f, rfl⟩ : ∃ f, fuel = f + 1 := ⟨fuel - 1, by omega⟩
    have hpk : p = k := by omega
    subst hpk
    rw [VFOR_loop_done body f p (st p) hend]
    rfl
  | succ n ih =>
    intro p fuel hn hp hf
    obtain ⟨f, rfl⟩ : ∃ f, fuel = f + 1 := ⟨fuel - 1, by omega⟩
    have hlt : p < k := by omega
    obtain ⟨h1, h2⟩ := hstep p hlt
    rw [VFOR_loop_next body f p p (st p) (st (p + 1)) h1 h2,
      ih (p + 1) f (by omega) (by omega) (by omega)]
    rfl

/-- A body that runs to its end without assigning the loop variable and keeps
`size` determines the sequence of states in which its runs start; the body is
run at the cursors `0, ..., size - 1` in these states. -/
theorem VFOR_states (body : Nat → vec T → Outcome (vec T) (Step T))
    (hbody : ∀ p w, p < w.size → ∃ w1, body p w = .ret (.next p w1) ∧ w1.size = w.size)
    (v : vec T) :
    ∃ st : Nat → vec T, st 0 = v ∧ (∀ i, i ≤ v.size → (st i).size = v.size) ∧
      ∀ i, i < v.size → body i (st i) = .ret (.next i (st (i + 1))) := by
  obtain ⟨nxt, hnxt⟩ : ∃ nxt : Nat → vec T → vec T,
      ∀ i s q w, body i s = .ret (.next q w) → nxt i s = w :=
    ⟨fun i s => match body i s with
      | .ret (.next _ w) => w
      | _ => s, by
        intro i s q w h
        simp only [h]⟩
  obtain ⟨st, hst0, hstS⟩ : ∃ st : Nat → vec T, st 0 = v ∧ ∀ i, st (i + 1) = nxt i (st i) :=
    ⟨fun n => @Nat.rec (fun _ => vec T) v (fun i s => nxt i s) n, rfl, fun _ => rfl⟩
  have hsize : ∀ i, i ≤ v.size → (st i).size = v.size := by
    intro i
    induction i with
    | zero => intro _; rw [hst0]
    | succ i ih =>
      intro hi
      have hi1 := ih (by omega)
      obtain ⟨w1, hb, hw⟩ := hbody i (st i) (by omega)
      rw [hstS i, hnxt i (st i) i w1 hb, hw, hi1]
  refine ⟨st, hst0, hsize, ?_⟩
  intro i hi
  have hi1 := hsize i (by omega)
  obtain ⟨w1, hb, -⟩ := hbody i (st i) (by omega)
  rw [hstS i, hnxt i (st i) i w1 hb]
  exact hb

/-- The traversal with the body `*Var = f(*Var);`: it visits `0, ..., size - 1`
and leaves `f` of the old value in each of these slots, and nothing else changed. -/
theorem VFOR_loop_store (f : T → T) (v : vec T) (fuel : Nat) (hf : v.size < fuel) :
    VFOR_loop (store_body f) fuel 0 v =
      some (List.range' 0 v.size,
        .ret { v with elements := fun j => if j < v.size then f (v.elements j)
                                           else v.elements j }) := by
  have h0 : ({ v with elements := fun j => if j < 0 then f (v.elements j)
                                           else v.elements j } : vec T) = v := by
    cases v
    simp
  have hrun := VFOR_loop_run (store_body f)
    (fun i => { v with elements := fun j => if j < i then f (v.elements j) else v.elements j })
    v.size
    (by
      intro i hi
      refine ⟨hi, ?_⟩
      simp only [store_body]
      congr 3
      funext j
      by_cases hj : j = i
      · subst hj
        simp
      · rw [Function.update_noteq hj]
        by_cases hlt : j < i
        · have : j < i + 1 := by omega
          simp [hlt, this]
        · have : ¬ j < i + 1 := by omega
          simp [hlt, this])
    (by simp) v.size 0 fuel rfl (Nat.zero_le _) hf
  simp only at hrun
  rw [h0] at hrun
  exact hrun

/-- While the vector holds no more than `INT_MAX` elements, the loop of `VFOR`
and the documented loop agree on every body that does not assign the loop
variable and leaves no other value in the `elements` pointer. -/
theorem VFOR_loop_eq_documented (body : Nat → vec T → Outcome (vec T) (Step T))
    (hvar : ∀ p w q w1, body p w = .ret (.next q w1) →
      q = p ∧ (w.size ≤ INT_MAX → w1.size ≤ INT_MAX))
    (hmoved : ∀ p w w1, body p w ≠ .ret (.moved w1)) (fuel : Nat) :
    ∀ (p : Nat) (v : vec T), v.size ≤ INT_MAX →
      VFOR_loop body fuel p v = documented_loop body fuel p v := by
  induction fuel with
  | zero => intro p v _; rfl
  | succ fuel ih =>
    intro p v hv
    rw [VFOR_loop_succ, documented_loop_succ]
    by_cases hlt : p < v.size
    · rw [if_pos hlt, if_pos hlt]
      have hne : ¬ p = INT_MAX := by omega
      cases hb : body p v with
      | ret s =>
        cases s with
        | next q v1 =>
          obtain ⟨hq, hs⟩ := hvar p v q v1 hb
          simp only
          rw [if_neg hne, hq, ih (p + 1) v1 (hs hv)]
        | moved v1 => exact absurd hb (hmoved p v v1)
        | leave v1 => rfl
      | fatal s => rfl
      | undefined => rfl
    · rw [if_neg hlt, if_neg hlt]

/-- Over runs of at most `INT_MAX` steps, the loop of `VFOR` and the documented
loop agree on every body that does not assign the loop variable and leaves no
other value in the `elements` pointer. -/
theorem VFOR_loop_eq_documented_steps (body : Nat → vec T → Outcome (vec T) (Step T))
    (hvar : ∀ p w q w1, body p w = .ret (.next q w1) → q = p)
    (hmoved : ∀ p w w1, body p w ≠ .ret (.moved w1)) (fuel : Nat) :
    ∀ (p : Nat) (v : vec T), fuel + p ≤ INT_MAX →
      VFOR_loop body fuel p v = documented_loop body fuel p v := by
  induction fuel with
  | zero => intro p v _; rfl
  | succ fuel ih =>
    intro p v hp
    rw [VFOR_loop_succ, documented_loop_succ]
    by_cases hlt : p < v.size
    · rw [if_pos hlt, if_pos hlt]
      have hne : ¬ p = INT_MAX := by omega
      cases hb : body p v with
      | ret s =>
        cases s with
        | next q v1 =>
          have hq := hvar p v q v1 hb
          simp only
          rw [if_neg hne, hq, ih (p + 1) v1 (by omega)]
        | moved v1 => exact absurd hb (hmoved p v v1)
        | leave v1 => rfl
      | fatal s => rfl
      | undefined => rfl
    · rw [if_neg hlt, if_neg hlt]

/-- On a vector with more than `INT_MAX` elements the documented loop with the
body that does nothing runs into the overflow of its `int` counter. -/
theorem documented_loop_skip_overflow (v : vec T) (hv : INT_MAX < v.size) (n : Nat) :
    ∀ (i fuel : Nat), INT_MAX - i = n → i ≤ INT_MAX → n < fuel →
      documented_loop skip_body fuel i v = some (List.range' i (n + 1), .undefined) := by
  induction n with
  | zero =>
    intro i fuel hn hi hf
    obtain ⟨f1, rfl⟩ : ∃ f1, fuel = f1 + 1 := ⟨fuel - 1, by omega⟩
    have hlt : i < v.size := by omega
    have hmax : i = INT_MAX := by omega
    rw [documented_loop_succ, if_pos hlt]
    simp only [skip_body]
    rw [if_pos hmax]
    rfl
  | succ n ih =>
    intro i fuel hn hi hf
    obtain ⟨f1, rfl⟩ : ∃ f1, fuel = f1 + 1 := ⟨fuel - 1, by omega⟩
    have hlt : i < v.size := by omega
    have hmax : ¬ i = INT_MAX := by omega
    rw [documented_loop_succ, if_pos hlt]
    simp only [skip_body]
    rw [if_neg hmax, ih (i + 1) f1 (by omega) (by omega) (by omega)]
    rfl

/-- C11 (as amended): for every vector with `n = size` elements and every loop
body that runs to its end without assigning the loop variable and does not
change the vector's `size`, a `VFOR` traversal (given more than `n` steps of
fuel) runs the body exactly `n` times and returns: the `i`-th run (`i =
0..n-1`) is the body run with the loop variable at `&elements[i]`, in the state
`st i` that the run before it left (`st 0` is the vector at the start), and the
traversal returns in the state `st n` that the last run left; for `size = 0`
no body ever runs. -/
theorem VFOR_visits (body : Nat → vec T → Outcome (vec T) (Step T))
    (hbody : ∀ p w, p < w.size → ∃ w1, body p w = .ret (.next p w1) ∧ w1.size = w.size)
    (v : vec T) (fuel : Nat) (hf : v.size < fuel) :
    (∃ st : Nat → vec T, st 0 = v ∧
      (∀ i, i < v.size → body i (st i) = .ret (.next i (st (i + 1)))) ∧
      VFOR body fuel v = some (List.range v.size, .ret (st v.size))) ∧
    (∀ body1 : Nat → vec T → Outcome (vec T) (Step T), v.size = 0 →
      VFOR body1 fuel v = some ([], .ret v)) := by
  constructor
  · obtain ⟨st, hst0, hsize, hstep⟩ := VFOR_states body hbody v
    refine ⟨st, hst0, hstep, ?_⟩
    have hrun := VFOR_loop_run body st v.size
      (fun i hi => ⟨by rw [hsize i (by omega)]; exact hi, hstep i hi⟩)
      (by rw [hsize v.size (le_refl _)]; omega) v.size 0 fuel rfl (Nat.zero_le _) hf
    rw [hst0] at hrun
    rw [VFOR, hrun, List.range_eq_range']
  · intro body1 h0
    obtain ⟨f1, rfl⟩ : ∃ f1, fuel = f1 + 1 := ⟨fuel - 1, by omega⟩
    rw [VFOR, VFOR_loop_done body1 f1 0 v (by omega)]

/-- C11, witness: the traversal of a vector holding 1, 2, 3 with the body
`*Var = 2 * *Var;`. -/
theorem VFOR_visits_witness :
    (∀ p (w : vec Int), p < w.size →
      ∃ w1, store_body (fun x => 2 * x) p w = .ret (.next p w1) ∧ w1.size = w.size) ∧
    three16.size < 4 ∧
    ((∃ st : Nat → vec Int, st 0 = three16 ∧
        (∀ i, i < three16.size →
          store_body (fun x => 2 * x) i (st i) = .ret (.next i (st (i + 1)))) ∧
        VFOR (store_body fun x => 2 * x) 4 three16
          = some (List.range three16.size, .ret (st three16.size))) ∧
      (∀ body1 : Nat → vec Int → Outcome (vec Int) (Step Int), three16.size = 0 →
        VFOR body1 4 three16 = some ([], .ret three16))) :=
  ⟨fun _ _ _ => ⟨_, rfl, rfl⟩, by decide,
    VFOR_visits (store_body fun x => 2 * x) (fun _ _ _ => ⟨_, rfl, rfl⟩) three16 4 (by decide)⟩

/-- C11, counterexample: the bodies `break;` and `Var++;` change neither the
size nor the buffer of the vector; on a vector of size 3 the traversal with
`break;` runs the body once, and the traversal with `Var++;` runs it twice,
the second time with the loop variable at `&elements[2]`. -/
theorem VFOR_visits_counterexample :
    three16.size = 3 ∧
    (∀ p (w : vec Int), break_body p w = .ret (.leave w)) ∧
    VFOR break_body 10 three16 = some ([0], .ret three16) ∧
    (∀ p (w : vec Int), advance_body p w = .ret (.next (p + 1) w)) ∧
    VFOR advance_body 10 three16 = some ([0, 2], .ret three16) :=
  ⟨rfl, fun _ _ => rfl, rfl, fun _ _ => rfl, rfl⟩

/-- C12: for every vector and every function `f` on elements, a `VFOR`
traversal with the body `*Var = f(*Var);` (given more than `size` steps of
fuel) returns with, for every `i < size`, the element at index `i` equal to `f`
of its old value; every other slot, `size` and `capacity` are unchanged. -/
theorem VFOR_store (f : T → T) (v : vec T) (fuel : Nat) (hf : v.size < fuel) :
    ∃ visited v1, VFOR (store_body f) fuel v = some (visited, .ret v1) ∧
      (∀ i, i < v.size → v1.elements i = f (v.elements i)) ∧
      (∀ i, v.size ≤ i → v1.elements i = v.elements i) ∧
      v1.size = v.size ∧ v1.capacity = v.capacity := by
  refine ⟨_, _, VFOR_loop_store f v fuel hf, ?_, ?_, rfl, rfl⟩
  · intro i hi
    simp only [if_pos hi]
  · intro i hi
    have h : ¬ i < v.size := by omega
    simp only [if_neg h]

/-- C12, witness: doubling every element of a vector holding 1, 2, 3. -/
theorem VFOR_store_witness :
    three16.size < 4 ∧
    ∃ visited v1, VFOR (store_body fun x => 2 * x) 4 three16 = some (visited, .ret v1) ∧
      (∀ i, i < three16.size → v1.elements i = 2 * three16.elements i) ∧
      (∀ i, three16.size ≤ i → v1.elements i = three16.elements i) ∧
      v1.size = three16.size ∧ v1.capacity = three16.capacity :=
  ⟨by decide, VFOR_store (fun x => 2 * x) three16 4 (by decide)⟩

/-- C17 (as amended): for every vector `v` and every loop body that does not
assign the loop variable and leaves no other value in the `elements` pointer,
`VFOR(Var, v) body` behaves the same as the indexed loop that the header
documents as its expansion, as long as the `int` counter of that loop does not
overflow: on a vector that never holds more than `INT_MAX` elements, and, on
any vector, over every run of at most `INT_MAX` steps.  The two loops run the
body at the same elements and end in the same way and state. -/
theorem VFOR_eq_documented (body : Nat → vec T → Outcome (vec T) (Step T))
    (hvar : ∀ p w q w1, body p w = .ret (.next q w1) → q = p)
    (hmoved : ∀ p w w1, body p w ≠ .ret (.moved w1)) :
    (∀ (v : vec T) (fuel : Nat), v.size ≤ INT_MAX →
      (∀ p w q w1, body p w = .ret (.next q w1) → w.size ≤ INT_MAX → w1.size ≤ INT_MAX) →
      VFOR body fuel v = documented_loop body fuel 0 v) ∧
    (∀ (v : vec T) (fuel : Nat), fuel ≤ INT_MAX →
      VFOR body fuel v = documented_loop body fuel 0 v) := by
  constructor
  · intro v fuel hv hsize
    exact VFOR_loop_eq_documented body
      (fun p w q w1 h => ⟨hvar p w q w1 h, hsize p w q w1 h⟩) hmoved fuel 0 v hv
  · intro v fuel hfuel
    exact VFOR_loop_eq_documented_steps body hvar hmoved fuel 0 v (by omega)

/-- C17, witness: the two loops with the body `VName_pop(Vec);` over a vector
holding 1, 2, 3, whatever the fuel. -/
theorem VFOR_eq_documented_witness :
    (∀ p (w : vec Int) q w1, pop_body p w = .ret (.next q w1) → q = p) ∧
    (∀ p (w w1 : vec Int), pop_body p w ≠ .ret (.moved w1)) ∧
    three16.size ≤ INT_MAX ∧
    (∀ p (w : vec Int) q w1, pop_body p w = .ret (.next q w1) →
      w.size ≤ INT_MAX → w1.size ≤ INT_MAX) ∧
    (∀ fuel, VFOR pop_body fuel three16 = documented_loop pop_body fuel 0 three16) ∧
    VFOR pop_body 10 three16 = documented_loop pop_body 10 0 three16 ∧
    VFOR pop_body 10 three16 = some ([0, 1], .ret (popped 2)) := by
  have hpop : ∀ p (w : vec Int) q w1, pop_body p w = .ret (.next q w1) →
      q = p ∧ w1.size = w.size - 1 := by
    intro p w q w1 h
    unfold pop_body pop at h
    split at h
    · exact Outcome.noConfusion h
    · rw [Outcome.bind_ret] at h
      obtain ⟨h1, h2⟩ := Step.next.inj (Outcome.ret.inj h)
      exact ⟨h1.symm, by rw [← h2]⟩
  have hvar : ∀ p (w : vec Int) q w1, pop_body p w = .ret (.next q w1) → q = p :=
    fun p w q w1 h => (hpop p w q w1 h).1
  have hsize : ∀ p (w : vec Int) q w1, pop_body p w = .ret (.next q w1) →
      w.size ≤ INT_MAX → w1.size ≤ INT_MAX := by
    intro p w q w1 h hw
    rw [(hpop p w q w1 h).2]
    omega
  have hmoved : ∀ p (w w1 : vec Int), pop_body p w ≠ .ret (.moved w1) := by
    intro p w w1 h
    unfold pop_body pop at h
    split at h
    · exact Outcome.noConfusion h
    · rw [Outcome.bind_ret] at h
      exact Step.noConfusion (Outcome.ret.inj h)
  exact ⟨hvar, hmoved, by decide, hsize,
    fun fuel => (VFOR_eq_documented pop_body hvar hmoved).1 three16 fuel (by decide) hsize,
    (VFOR_eq_documented pop_body hvar hmoved).2 three16 10 (by decide), rfl⟩

/-- C17, counterexample: (1) with the body `Var++;` on a vector holding 1, 2,
3: `VFOR` goes on behind the cursor the body left and runs the body at the
indices 0 and 2, while the documented loop takes its variable anew from the
counter and runs it at 0, 1 and 2; (2) with the body that does nothing, on a
vector of `2^31 + 1` elements: `VFOR` runs the body at all of them and returns,
while the `int` counter of the documented loop overflows after `2^31` runs;
(3) with the body that moves the buffer into a new block, on a vector holding
1, 2, 3: after the first run the loop variable of `VFOR` points into the old
block and its test is undefined, while the documented loop takes its variable
from the new block and runs the body at 0, 1 and 2. -/
theorem VFOR_eq_documented_counterexample :
    (VFOR advance_body 10 three16 = some ([0, 2], .ret three16) ∧
      documented_loop advance_body 10 0 three16 = some ([0, 1, 2], .ret three16)) ∧
    (huge.size = 2 ^ 31 + 1 ∧
      VFOR skip_body (2 ^ 31 + 2) huge = some (List.range' 0 (2 ^ 31 + 1), .ret huge) ∧
      documented_loop skip_body (2 ^ 31 + 2) 0 huge
        = some (List.range' 0 (2 ^ 31), .undefined)) ∧
    (VFOR relocate_body 10 three16 = some ([0], .undefined) ∧
      documented_loop relocate_body 10 0 three16
        = some ([0, 1, 2], .ret { three16 with block := some 64 })) := by
  refine ⟨⟨rfl, rfl⟩, ⟨rfl, ?_, ?_⟩, rfl, rfl⟩
  · exact VFOR_loop_run skip_body (fun _ => huge) (2 ^ 31 + 1)
      (fun i hi => ⟨hi, rfl⟩) (by simp [huge]) (2 ^ 31 + 1) 0 (2 ^ 31 + 2) rfl
      (Nat.zero_le _) (by omega)
  · have h := documented_loop_skip_overflow huge (by rw [INT_MAX_eq]; norm_num [huge])
      INT_MAX 0 (2 ^ 31 + 2) rfl (Nat.zero_le _) (by rw [INT_MAX_eq]; norm_num)
    have hn : INT_MAX + 1 = 2 ^ 31 := by rw [INT_MAX_eq]; norm_num
    rw [hn] at h
    exact h

/-- What a returning `create` leaves: the state `init` leaves on a zeroed structure. -/
theorem create_ret_inv [CType T] (A : Allocator) (mem : Nat → T) (v1 : vec T)
    (h : create A mem = .ret v1) :
    init A ({ elements := mem, block := none, size := 0, capacity := 0 } : vec T) = .ret v1 := by
  unfold create at h
  split at h
  · split at h
    · rename_i v2 hi
      rw [hi, ← Outcome.ret.inj h]
    · exact Outcome.noConfusion h
    · exact Outcome.noConfusion h
  · exact Outcome.noConfusion h

/-- For an element type no larger than the control structure, `init` and
`create` (allocation succeeding) leave `size = 0`, `capacity = 16` and the 16
slots zero. -/
theorem init_zeroes_small [CType T] (A : Allocator) (hA : A.succeeds) (v : vec T)
    (hsz : CType.sizeof T ≤ sizeof_vec) :
    (∃ v1, init A v = .ret v1 ∧ v1.size = 0 ∧ v1.capacity = 16 ∧
      ∀ i, i < 16 → v1.elements i = CType.zero) ∧
    (∃ v1, create A v.elements = .ret v1 ∧ v1.size = 0 ∧ v1.capacity = 16 ∧
      ∀ i, i < 16 → v1.elements i = CType.zero) := by
  have hin : ∀ i, i < 16 → (i + 1) * CType.sizeof T ≤ 16 * sizeof_vec := by
    intro i hi
    calc (i + 1) * CType.sizeof T ≤ 16 * CType.sizeof T := Nat.mul_le_mul_right _ (by omega)
      _ ≤ 16 * sizeof_vec := Nat.mul_le_mul_left _ hsz
  constructor
  · obtain ⟨v1, h, -⟩ := init_ret A hA v
    obtain ⟨h1, h2, -, h4⟩ := init_ret_inv A v v1 h
    refine ⟨v1, h, h1, h2, ?_⟩
    intro i hi
    rw [h4 i, if_pos (hin i hi)]
  · obtain ⟨v1, h, -⟩ := init_ret A hA
      ({ elements := v.elements, block := none, size := 0, capacity := 0 } : vec T)
    obtain ⟨h1, h2, -, h4⟩ := init_ret_inv A _ v1 h
    refine ⟨v1, ?_, h1, h2, ?_⟩
    · simp only [create, hA.1, if_true, h]
    · intro i hi
      rw [h4 i, if_pos (hin i hi)]

/-- C13 (the failing input): for the 32-byte element type `struct quad`, `init`
and `create` (allocation succeeding) leave `size = 0` and `capacity = 16`, but
the block they obtained has 384 bytes, which is 12 slots: slot 11 is zero, and
slot 12 (below the capacity) lies outside the block and holds what the memory
held before, here `{1, 1, 1, 1}`. -/
theorem init_slots_beyond_block :
    ((init okAlloc staleQuad).returned.map fun s =>
      (s.size, s.capacity, s.block, s.elements 11, s.elements 12))
      = some (0, 16, some 384, ⟨0, 0, 0, 0⟩, ⟨1, 1, 1, 1⟩) ∧
    ((create okAlloc staleQuad.elements).returned.map fun s =>
      (s.size, s.capacity, s.block, s.elements 11, s.elements 12))
      = some (0, 16, some 384, ⟨0, 0, 0, 0⟩, ⟨1, 1, 1, 1⟩) ∧
    16 * sizeof_vec < (12 + 1) * CType.sizeof quad :=
  ⟨rfl, rfl, by decide⟩

/-- C19 (the failing input): `init` requests `16 * sizeof(struct VName) = 384`
bytes whatever the element type.  For `int` that is not `16 * sizeof(int)`;
for the 32-byte `struct quad` it is less than `capacity * sizeof(T) = 512`,
and the slot at index 12, below the capacity 16, ends outside the block. -/
theorem init_request_bytes :
    ((init okAlloc wrapVec).returned.map fun s => (s.capacity, s.block)) = some (16, some 384) ∧
    384 ≠ 16 * CType.sizeof Int ∧
    ((init okAlloc staleQuad).returned.map fun s => (s.capacity, s.block))
      = some (16, some 384) ∧
    384 < 16 * CType.sizeof quad ∧ 384 < (12 + 1) * CType.sizeof quad :=
  ⟨rfl, by decide, rfl, by decide, by decide⟩

/-! ## C14, C15, C16, C20: the capacity -/

/-- What a returning `realloc` did. -/
theorem realloc_ret_inv [CType T] (A : Allocator) (v v1 : vec T) (h : realloc A v = .ret v1) :
    v1.elements = realloc_slots A v (grow_bytes v) ∧ v1.size = v.size ∧
    v1.capacity = (v.capacity * 2) % SIZE_MOD := by
  unfold realloc at h
  dsimp only at h
  split at h
  · rw [← Outcome.ret.inj h]
    exact ⟨rfl, rfl, rfl⟩
  · exact Outcome.noConfusion h

/-- A property that every returning `push` keeps is kept by a returning run
of the loop of `extend`. -/
theorem extend_loop_ret_pres [CType T] (A : Allocator) (array : Nat → T) (k : Nat)
    (P : vec T → Prop) (hP : ∀ v e v1, P v → push A v e = .ret v1 → P v1) (n : Nat) :
    ∀ (i : Nat) (v v1 : vec T), k - i = n → P v →
      extend_loop A array k i v = .ret v1 → P v1 := by
  induction n with
  | zero =>
    intro i v v1 hn hv h
    have hlt : ¬ i < k := by omega
    rw [extend_loop_unfold, if_neg hlt] at h
    rw [← Outcome.ret.inj h]
    exact hv
  | succ n ih =>
    intro i v v1 hn hv h
    have hlt : i < k := by omega
    rw [extend_loop_unfold, if_pos hlt] at h
    cases hp : push A v (array i) with
    | ret v2 =>
      rw [hp, Outcome.bind_ret] at h
      by_cases hmax : i = INT_MAX
      · rw [if_pos hmax] at h
        exact Outcome.noConfusion h
      · rw [if_neg hmax] at h
        exact ih (i + 1) v2 v1 (by omega) (hP v (array i) v2 hv hp) h
    | fatal s =>
      rw [hp, Outcome.bind_fatal] at h
      exact Outcome.noConfusion h
    | undefined =>
      rw [hp, Outcome.bind_undefined] at h
      exact Outcome.noConfusion h

/-- Doubling modulo `2^64` keeps the form `16 * 2^k` modulo `2^64`. -/
theorem double_wrap (c : Nat) (h : ∃ k, c = 16 * 2 ^ k % SIZE_MOD) :
    ∃ k, (c * 2) % SIZE_MOD = 16 * 2 ^ k % SIZE_MOD := by
  obtain ⟨k, hk⟩ := h
  refine ⟨k + 1, ?_⟩
  rw [hk, Nat.mod_mul_mod, pow_succ, Nat.mul_assoc]

/-- Every call that returns keeps the capacity of the form `16 * 2^k` modulo `2^64`. -/
theorem run_op_wrap [CType T] (A : Allocator) (o : Op T) (v v1 : vec T)
    (hv : ∃ k, v.capacity = 16 * 2 ^ k % SIZE_MOD) (h : o.run A v = .ret v1) :
    ∃ k, v1.capacity = 16 * 2 ^ k % SIZE_MOD := by
  have hpush : ∀ (w : vec T) (e : T) (w1 : vec T),
      (∃ k, w.capacity = 16 * 2 ^ k % SIZE_MOD) → push A w e = .ret w1 →
      ∃ k, w1.capacity = 16 * 2 ^ k % SIZE_MOD := by
    intro w e w1 hw hp
    obtain ⟨-, -, -, hcap⟩ := push_ret_inv A w w1 e hp
    rw [hcap]
    split
    · exact double_wrap _ hw
    · exact hw
  cases o with
  | push e => exact hpush v e v1 hv h
  | pop =>
    simp only [Op.run, pop] at h
    split at h
    · exact Outcome.noConfusion h
    · rw [Outcome.bind_ret] at h
      rw [← Outcome.ret.inj h]
      exact hv
  | top =>
    simp only [Op.run, top] at h
    split at h
    · exact Outcome.noConfusion h
    · rw [Outcome.bind_ret] at h
      rw [← Outcome.ret.inj h]
      exact hv
  | extend array size =>
    exact extend_loop_ret_pres A array size _ hpush size 0 v v1 rfl hv h
  | clear =>
    simp only [Op.run] at h
    rw [← Outcome.ret.inj h]
    exact hv
  | grow =>
    obtain ⟨-, -, hcap⟩ := realloc_ret_inv A v v1 h
    rw [hcap]
    exact double_wrap _ hv

theorem run_ops_wrap [CType T] (A : Allocator) (ops : List (Op T)) :
    ∀ (v v1 : vec T), (∃ k, v.capacity = 16 * 2 ^ k % SIZE_MOD) →
      run_ops A ops v = .ret v1 → ∃ k, v1.capacity = 16 * 2 ^ k % SIZE_MOD := by
  induction ops with
  | nil =>
    intro v v1 hv h
    rw [← Outcome.ret.inj h]
    exact hv
  | cons o os ih =>
    intro v v1 hv h
    simp only [run_ops] at h
    cases ho : o.run A v with
    | ret v2 =>
      rw [ho, Outcome.bind_ret] at h
      exact ih v2 v1 (run_op_wrap A o v v2 hv ho) h
    | fatal s =>
      rw [ho, Outcome.bind_fatal] at h
      exact Outcome.noConfusion h
    | undefined =>
      rw [ho, Outcome.bind_undefined] at h
      exact Outcome.noConfusion h

/-- A nonzero number of the form `16 * 2^k` modulo `2^64` is `16 * 2^k` with `k ≤ 59`. -/
theorem wrap_nonzero (c : Nat) (h : ∃ k, c = 16 * 2 ^ k % SIZE_MOD) (hc : c ≠ 0) :
    ∃ k, k ≤ 59 ∧ c = 16 * 2 ^ k ∧ 16 ≤ c := by
  obtain ⟨k, hk⟩ := h
  by_cases hk59 : k ≤ 59
  · have h1 : 2 ^ k ≤ 2 ^ 59 := Nat.pow_le_pow_right (by norm_num) hk59
    have h2 : 1 ≤ 2 ^ k := Nat.one_le_two_pow
    have h3 : 16 * 2 ^ k % SIZE_MOD = 16 * 2 ^ k := by
      rw [SIZE_MOD_eq]
      exact Nat.mod_eq_of_lt (by omega)
    rw [h3] at hk
    exact ⟨k, hk59, hk, by omega⟩
  · exfalso
    apply hc
    have h1 : k = 60 + (k - 60) := by omega
    have h2 : 16 * 2 ^ k = SIZE_MOD * 2 ^ (k - 60) := by
      rw [h1, pow_add, SIZE_MOD_eq, ← Nat.mul_assoc]
      norm_num
    rw [hk, h2, Nat.mul_mod_right]

/-- C14 (as amended): in every state reached from `init` or `create` by any
sequence of `push`, `pop`, `top`, `extend`, `clear` and `grow` calls that
return, the capacity is `16 * 2^k` modulo `2^64` for some `k ≥ 0`: it is
either 0 (once the doubling has wrapped) or `16 * 2^k` with `k ≤ 59`, hence
`≥ 16`. -/
theorem capacity_shape_reachable [CType T] (A : Allocator) (v0 : vec T) (mem : Nat → T)
    (ops : List (Op T)) (v1 v : vec T)
    (hstart : init A v0 = .ret v1 ∨ create A mem = .ret v1)
    (hrun : run_ops A ops v1 = .ret v) :
    (∃ k, v.capacity = 16 * 2 ^ k % SIZE_MOD) ∧
    (v.capacity ≠ 0 → ∃ k, k ≤ 59 ∧ v.capacity = 16 * 2 ^ k ∧ 16 ≤ v.capacity) := by
  have h16 : v1.capacity = 16 := by
    rcases hstart with h | h
    · exact (init_ret_inv A v0 v1 h).2.1
    · exact (init_ret_inv A _ v1 (create_ret_inv A mem v1 h)).2.1
  have hv1 : ∃ k, v1.capacity = 16 * 2 ^ k % SIZE_MOD :=
    ⟨0, by rw [h16, SIZE_MOD_eq]; norm_num⟩
  have hv := run_ops_wrap A ops v1 v hv1 hrun
  exact ⟨hv, wrap_nonzero v.capacity hv⟩

/-- C14, witness: the state after `init`, two pushes, a `pop`, a `grow` and a `clear`. -/
theorem capacity_shape_reachable_witness :
    ∃ v1 v, (init okAlloc wrapVec = .ret v1 ∨ create okAlloc wrapVec.elements = .ret v1) ∧
      run_ops okAlloc [Op.push 1, Op.push 2, Op.pop, Op.grow, Op.clear] v1 = .ret v ∧
      ((∃ k, v.capacity = 16 * 2 ^ k % SIZE_MOD) ∧
        (v.capacity ≠ 0 → ∃ k, k ≤ 59 ∧ v.capacity = 16 * 2 ^ k ∧ 16 ≤ v.capacity)) :=
  ⟨_, _, Or.inl rfl, rfl,
    capacity_shape_reachable okAlloc wrapVec wrapVec.elements
      [Op.push 1, Op.push 2, Op.pop, Op.grow, Op.clear] _ _ (Or.inl rfl) rfl⟩

/-- C14, counterexample: 60 calls of `grow` on a freshly initialised vector
(each `realloc` returning a block) leave the capacity `16 * 2^60 mod 2^64 = 0`,
which is not `16 * 2^k` for any `k` and not `≥ 16`. -/
theorem capacity_shape_reachable_counterexample :
    (((init okAlloc wrapVec).bind fun v =>
        run_ops okAlloc (List.replicate 60 Op.grow) v).returned.map fun s => s.capacity)
      = some 0 :=
  rfl

/-- C15 (as amended): for every vector whose block at `elements` has at least
`capacity * sizeof(T)` bytes and with `2 * capacity` and `2 * capacity *
sizeof(T)` below `2^64`, `grow` (the generated `realloc`, allocation
succeeding) returns, sets `capacity` to exactly `2 * old capacity`, leaves
`size` unchanged, and keeps the content of every slot below the old capacity. -/
theorem grow_contract [CType T] (A : Allocator) (v : vec T)
    (hA : A.realloc v.block (grow_bytes v) = true)
    (hblock : v.capacity * CType.sizeof T ≤ v.block.getD 0)
    (h2 : 2 * v.capacity < SIZE_MOD) (hb : 2 * v.capacity * CType.sizeof T < SIZE_MOD) :
    ∃ v1, realloc A v = .ret v1 ∧ v1.capacity = 2 * v.capacity ∧ v1.size = v.size ∧
      ∀ i, i < v.capacity → v1.elements i = v.elements i := by
  refine ⟨_, realloc_ret A v hA, ?_, rfl, ?_⟩
  · simp only
    rw [Nat.mul_comm]
    exact Nat.mod_eq_of_lt h2
  · intro i hi
    exact realloc_slots_below A v hblock h2 hb i hi

/-- C15, witness: `grow` on a full vector of capacity 16, whose block of 384
bytes holds the 16 `int` slots. -/
theorem grow_contract_witness :
    okAlloc.realloc full16.block (grow_bytes full16) = true ∧
    full16.capacity * CType.sizeof Int ≤ full16.block.getD 0 ∧
    2 * full16.capacity < SIZE_MOD ∧ 2 * full16.capacity * CType.sizeof Int < SIZE_MOD ∧
    ∃ v1, realloc okAlloc full16 = .ret v1 ∧ v1.capacity = 2 * full16.capacity ∧
      v1.size = full16.size ∧ ∀ i, i < full16.capacity → v1.elements i = full16.elements i :=
  ⟨rfl, by decide, by decide, by decide,
    grow_contract okAlloc full16 rfl (by decide) (by decide) (by decide)⟩

/-- C15, counterexample: (1) `grow` on the vector of capacity `2^63 + 8` returns
with capacity 16 (the doubling wraps), not with `2 * (2^63 + 8)`; (2) `grow` on
the full `struct quad` vector that `init` and 16 pushes leave, whose block has
384 bytes, which is 12 of the 16 slots, returns with the slot at index 12
(below the old capacity 16) no longer holding what it held: `realloc` has
carried over the 384 bytes of the old block only, and the rest of the new block
is as the allocator `okAlloc` hands it out. -/
theorem grow_contract_counterexample :
    (((realloc okAlloc wrapVec).returned.map fun s => s.capacity) = some 16 ∧
      (16 : Nat) ≠ 2 * wrapVec.capacity) ∧
    ((quad16.returned.map fun s => (s.capacity, s.block, s.elements 12))
        = some (16, some 384, ⟨13, 13, 13, 13⟩) ∧
      ((quad16.bind fun v => realloc okAlloc v).returned.map fun s =>
        (s.capacity, s.block, s.elements 11, s.elements 12))
        = some (32, some 1024, ⟨12, 12, 12, 12⟩, ⟨0, 0, 0, 0⟩)) :=
  ⟨⟨rfl, by norm_num [wrapVec]⟩, rfl, rfl⟩

/-- A returning `push` on a vector with room does not lower the capacity. -/
theorem push_cap_mono [CType T] (A : Allocator) (v v1 : vec T) (e : T) (r : Nat)
    (hv : room v (r + 1)) (h : push A v e = .ret v1) : v.capacity ≤ v1.capacity := by
  obtain ⟨-, -, -, hcap⟩ := push_ret_inv A v v1 e h
  obtain ⟨hsc, h0, h64, hroom⟩ := hv
  rw [SIZE_MOD_eq] at hcap
  by_cases heq : v.size = v.capacity
  · rw [if_pos heq] at hcap
    omega
  · rw [if_neg heq] at hcap
    omega

/-- A returning run of the loop of `extend` does not lower the capacity. -/
theorem extend_loop_ret_mono [CType T] (A : Allocator) (array : Nat → T) (k : Nat) (n : Nat) :
    ∀ (i : Nat) (v v1 : vec T), k - i = n → i ≤ INT_MAX → room v (INT_MAX - i) →
      extend_loop A array k i v = .ret v1 → v.capacity ≤ v1.capacity := by
  induction n with
  | zero =>
    intro i v v1 hn _ _ h
    have hlt : ¬ i < k := by omega
    rw [extend_loop_unfold, if_neg hlt] at h
    rw [← Outcome.ret.inj h]
  | succ n ih =>
    intro i v v1 hn hi hv h
    have hlt : i < k := by omega
    rw [extend_loop_unfold, if_pos hlt] at h
    cases hp : push A v (array i) with
    | ret v2 =>
      rw [hp, Outcome.bind_ret] at h
      by_cases hmax : i = INT_MAX
      · rw [if_pos hmax] at h
        exact Outcome.noConfusion h
      · rw [if_neg hmax] at h
        have hr : INT_MAX - i = (INT_MAX - (i + 1)) + 1 := by omega
        rw [hr] at hv
        have hv2 := room_push A v v2 (array i) (INT_MAX - (i + 1))
          (by rw [INT_MAX_eq]; omega) hv hp
        have hm := push_cap_mono A v v2 (array i) (INT_MAX - (i + 1)) hv hp
        have := ih (i + 1) v2 v1 (by omega) (by omega) hv2 h
        omega
    | fatal s =>
      rw [hp, Outcome.bind_fatal] at h
      exact Outcome.noConfusion h
    | undefined =>
      rw [hp, Outcome.bind_undefined] at h
      exact Outcome.noConfusion h

/-- C16 (as amended): for every vector state with `capacity < 2^63`, none of
`push`, `pop`, `top`, `extend`, `grow` and `clear`, when it returns, ends with
a capacity smaller than the one it started with; `destroy` sets the capacity
to 0. -/
theorem capacity_monotone [CType T] (A : Allocator) (v : vec T) (h63 : v.capacity < 2 ^ 63) :
    (∀ e v1, push A v e = .ret v1 → v.capacity ≤ v1.capacity) ∧
    (∀ x v1, pop v = .ret (x, v1) → v.capacity ≤ v1.capacity) ∧
    (∀ x v1, top v = .ret (x, v1) → v.capacity ≤ v1.capacity) ∧
    (∀ array k v1, extend A v array k = .ret v1 → v.capacity ≤ v1.capacity) ∧
    (∀ v1, realloc A v = .ret v1 → v.capacity ≤ v1.capacity) ∧
    v.capacity ≤ (clear v).capacity ∧
    (destroy v).capacity = 0 := by
  refine ⟨?_, ?_, ?_, ?_, ?_, Nat.le_refl _, rfl⟩
  · intro e v1 h
    obtain ⟨-, -, -, hcap⟩ := push_ret_inv A v v1 e h
    rw [SIZE_MOD_eq] at hcap
    by_cases heq : v.size = v.capacity
    · rw [if_pos heq] at hcap
      omega
    · rw [if_neg heq] at hcap
      omega
  · intro x v1 h
    unfold pop at h
    split at h
    · exact Outcome.noConfusion h
    · obtain ⟨-, h2⟩ := Prod.mk.inj (Outcome.ret.inj h)
      rw [← h2]
  · intro x v1 h
    unfold top at h
    split at h
    · exact Outcome.noConfusion h
    · obtain ⟨-, h2⟩ := Prod.mk.inj (Outcome.ret.inj h)
      rw [← h2]
  · intro array k v1 h
    by_cases h0 : v.capacity = 0
    · rw [h0]
      exact Nat.zero_le _
    · by_cases hsc : v.size ≤ v.capacity
      · exact extend_loop_ret_mono A array k k 0 v v1 rfl (Nat.zero_le _)
          ⟨hsc, by omega, by omega, Or.inl h63⟩ h
      · rw [extend, extend_loop_unfold] at h
        by_cases hk : 0 < k
        · rw [if_pos hk, push_of_gt A v (array 0) (by omega), Outcome.bind_fatal] at h
          exact Outcome.noConfusion h
        · rw [if_neg hk] at h
          rw [← Outcome.ret.inj h]
  · intro v1 h
    obtain ⟨-, -, hcap⟩ := realloc_ret_inv A v v1 h
    rw [SIZE_MOD_eq] at hcap
    omega

/-- C16, witness: the six operations and `destroy` on a full vector of capacity 16. -/
theorem capacity_monotone_witness :
    full16.capacity < 2 ^ 63 ∧
    ((∀ e v1, push okAlloc full16 e = .ret v1 → full16.capacity ≤ v1.capacity) ∧
      (∀ x v1, pop full16 = .ret (x, v1) → full16.capacity ≤ v1.capacity) ∧
      (∀ x v1, top full16 = .ret (x, v1) → full16.capacity ≤ v1.capacity) ∧
      (∀ array k v1, extend okAlloc full16 array k = .ret v1 →
        full16.capacity ≤ v1.capacity) ∧
      (∀ v1, realloc okAlloc full16 = .ret v1 → full16.capacity ≤ v1.capacity) ∧
      full16.capacity ≤ (clear full16).capacity ∧
      (destroy full16).capacity = 0) :=
  ⟨by norm_num [full16], capacity_monotone okAlloc full16 (by norm_num [full16])⟩

/-- C16, counterexample: `grow` on the vector of capacity `2^64 - 1` returns
with the capacity `2^64 - 2`, smaller than the one it started with. -/
theorem capacity_monotone_counterexample :
    ((realloc okAlloc maxVec).returned.map fun s => s.capacity) = some (2 ^ 64 - 2) ∧
    2 ^ 64 - 2 < maxVec.capacity :=
  ⟨rfl, by norm_num [maxVec]⟩

/-- C20: for every vector with `size ≤ capacity` and `0 < capacity < 2^63`, a
`push` that returns has written the new element at index `size` (its only
write after the `realloc` of a full vector), strictly below the capacity the
vector has after the push, and `push` returns when its allocation succeeds;
for a vector with `capacity = 0` (the state `destroy` leaves) `grow` keeps the
capacity at 0, and a returning `push` has written at index 0, which is not
below the capacity 0 it leaves. -/
theorem push_write_in_bounds [CType T] (A : Allocator) (v : vec T) (e : T)
    (hsc : v.size ≤ v.capacity) (h0 : 0 < v.capacity) (h63 : v.capacity < 2 ^ 63) :
    (∀ v1, push A v e = .ret v1 →
      v1.elements = Function.update
        (if v.size = v.capacity then realloc_slots A v (grow_bytes v) else v.elements)
        v.size e ∧
      v.size < v1.capacity) ∧
    ((v.size = v.capacity → A.realloc v.block (grow_bytes v) = true) →
      ∃ v1, push A v e = .ret v1) ∧
    (∀ w w1 : vec T, w.capacity = 0 → realloc A w = .ret w1 → w1.capacity = 0) ∧
    (∀ w w1 : vec T, w.size = 0 → w.capacity = 0 → push A w e = .ret w1 →
      w1.elements = Function.update (realloc_slots A w (grow_bytes w)) 0 e ∧
      ¬ 0 < w1.capacity) := by
  refine ⟨?_, ?_, ?_, ?_⟩
  · intro v1 h
    obtain ⟨-, hel, -, hcap⟩ := push_ret_inv A v v1 e h
    refine ⟨hel, ?_⟩
    rw [SIZE_MOD_eq] at hcap
    by_cases heq : v.size = v.capacity
    · rw [if_pos heq] at hcap
      omega
    · rw [if_neg heq] at hcap
      omega
  · intro hA
    obtain ⟨v1, h, -⟩ := push_step A v e hA hsc h0 (by omega)
    exact ⟨v1, h⟩
  · intro w w1 hw h
    obtain ⟨-, -, hcap⟩ := realloc_ret_inv A w w1 h
    rw [hcap, hw]
    rfl
  · intro w w1 hs hw h
    obtain ⟨-, hel, -, hcap⟩ := push_ret_inv A w w1 e h
    rw [if_pos (by omega), hs] at hel
    refine ⟨hel, ?_⟩
    rw [hcap, hs, hw]
    simp [SIZE_MOD_eq]

/-- C20, witness: `push` on a full vector of capacity 16. -/
theorem push_write_in_bounds_witness :
    full16.size ≤ full16.capacity ∧ 0 < full16.capacity ∧ full16.capacity < 2 ^ 63 ∧
    ((∀ v1, push okAlloc full16 7 = .ret v1 →
        v1.elements = Function.update
          (if full16.size = full16.capacity then realloc_slots okAlloc full16 (grow_bytes full16)
            else full16.elements)
          full16.size 7 ∧
        full16.size < v1.capacity) ∧
      ((full16.size = full16.capacity →
          okAlloc.realloc full16.block (grow_bytes full16) = true) →
        ∃ v1, push okAlloc full16 7 = .ret v1) ∧
      (∀ w w1 : vec Int, w.capacity = 0 → realloc okAlloc w = .ret w1 → w1.capacity = 0) ∧
      (∀ w w1 : vec Int, w.size = 0 → w.capacity = 0 → push okAlloc w 7 = .ret w1 →
        w1.elements = Function.update (realloc_slots okAlloc w (grow_bytes w)) 0 7 ∧
        ¬ 0 < w1.capacity)) :=
  ⟨by decide, by decide, by norm_num [full16],
    push_write_in_bounds okAlloc full16 7 (by decide) (by decide) (by norm_num [full16])⟩

end Cvec
